import Mathlib

/-!
Verification of the fsx filesystem utility toolkit (Go).

We give a shallow embedding of the core components named by the spec:
the depth-tracking walker (`walkWithDepth`), the six search entry points
(`FindFiles`, `FindFilesByRegex`, `FindFilesByContent`, `FindFilesBySize`,
`FindFilesByTime`, `FindFilesByPermissions`), the directory differ
(`CompareDirectories`), the duplicate finder (`FindDuplicateFiles`),
the advisory lock manager (`LockFile` / `Unlock`), and the deletion
entry points (`DeleteFile` / `DeleteDirectory`).

Modelling conventions:
- A directory tree is a value of `FSTree` (mutually inductive with `Ents`,
  the sibling list of a directory), so all walks are total functions.
- Machine `int` values from Go are `Int`; counters that only move up from
  zero are `Nat` and compared against `Int` bounds via coercion.
- File modification times are `Int` nanoseconds since the epoch;
  `unixSec` is the Go `Time.Unix()` truncation to whole seconds.
- I/O primitives (`os.Lstat`, `os.ReadDir`, `os.Open`) never fail on the
  modelled tree, so the error parameter Go passes to walk callbacks is
  always nil and is dropped from the visitor signature.
- Glob patterns are restricted to the `*` / `?` / literal fragment that
  the source documents for `matchPattern` (character classes and escapes
  are treated as literal characters), on which `filepath.Match` cannot
  return `ErrBadPattern`, so `matchPattern` is total here.
- A compiled regular expression is modelled as its matching function
  `String → Bool`, mirroring that `FindFilesByRegex` compiles the
  pattern once before the traversal begins.
-/

namespace Fsx

/-- Metadata of one filesystem node: byte size, modification time in
nanoseconds since the epoch, and permission bits (os.FileMode.Perm). -/
structure Meta where
  size : Int
  mtime : Int
  perm : Nat
deriving DecidableEq

mutual

/-- A filesystem tree: a regular file with content, or a directory with
an ordered list of named children (the order `os.ReadDir` returns). -/
inductive FSTree where
  | file (m : Meta) (content : String)
  | dir (m : Meta) (entries : Ents)

/-- The sibling list of a directory: each entry is a name and a subtree. -/
inductive Ents where
  | enil
  | econs (name : String) (child : FSTree) (rest : Ents)

end

/-- Whether the root node of a tree is a directory (`os.Stat(...).IsDir()`). -/
def FSTree.isDirT : FSTree → Bool
  | .file _ _ => false
  | .dir _ _ => true

/-- Snapshot of `os.FileInfo` as seen by a walk visitor: `Name()`,
`IsDir()`, `Size()`, `ModTime()` (nanoseconds), `Mode().Perm()`. -/
structure EInfo where
  name : String
  isDir : Bool
  size : Int
  mtime : Int
  perm : Nat
deriving DecidableEq

/-- The `os.FileInfo` of a node given the name it is listed under. -/
def einfoOf (name : String) : FSTree → EInfo
  | .file m _ => ⟨name, false, m.size, m.mtime, m.perm⟩
  | .dir m _ => ⟨name, true, m.size, m.mtime, m.perm⟩

/-- `Time.Unix()`: nanoseconds truncated (floored) to whole seconds. -/
def unixSec (ns : Int) : Int := ns.fdiv 1000000000

/-- The control value a walk visitor returns: nil, `filepath.SkipDir`,
`io.EOF` (the designated abort signal), or a generic error (coded). -/
inductive Sig where
  | cont
  | skipDir
  | eof
  | err (c : Nat)
deriving DecidableEq

/-- The error outcome of `walkWithDepth`: `none` models a nil error;
`some` carries `io.EOF`, `filepath.SkipDir`, or a generic failure. -/
inductive WErr where
  | eof
  | skipDir
  | fail (c : Nat)
deriving DecidableEq

mutual

/-- Embedding of `walkWithDepth` (search helper): visit the node itself,
honor SkipDir (only swallowed for directories) / EOF / errors, then
recurse into children. The visitor threads explicit state `σ`, standing
for the closure variables the Go callbacks mutate. -/
def walkWithDepth {σ : Type} (fn : σ → List String → EInfo → Nat → σ × Sig)
    (name : String) (path : List String) (depth : Nat) (s : σ) :
    FSTree → σ × Option WErr
  | .file m co =>
    match fn s path (einfoOf name (.file m co)) depth with
    | (s1, .cont) => (s1, none)
    | (s1, .skipDir) => (s1, some .skipDir)
    | (s1, .eof) => (s1, some .eof)
    | (s1, .err c) => (s1, some (.fail c))
  | .dir m es =>
    match fn s path (einfoOf name (.dir m es)) depth with
    | (s1, .cont) => walkEntries fn path depth s1 es
    | (s1, .skipDir) => (s1, none)
    | (s1, .eof) => (s1, some .eof)
    | (s1, .err c) => (s1, some (.fail c))

/-- The child loop of `walkWithDepth`: an `io.EOF` result from a child
returns immediately; any other child error is dropped and the loop
continues with the remaining siblings. -/
def walkEntries {σ : Type} (fn : σ → List String → EInfo → Nat → σ × Sig)
    (path : List String) (depth : Nat) (s : σ) : Ents → σ × Option WErr
  | .enil => (s, none)
  | .econs n c rest =>
    match walkWithDepth fn n (path ++ [n]) (depth + 1) s c with
    | (s1, some .eof) => (s1, some .eof)
    | (s1, some .skipDir) => walkEntries fn path depth s1 rest
    | (s1, some (.fail _)) => walkEntries fn path depth s1 rest
    | (s1, none) => walkEntries fn path depth s1 rest

end

/-- Glob matching on the `*` / `?` / literal fragment, with explicit fuel;
one step always consumes at least one character of pattern or input. -/
def globFuel : Nat → List Char → List Char → Bool
  | 0, _, _ => false
  | _ + 1, [], [] => true
  | _ + 1, [], _ :: _ => false
  | f + 1, '*' :: ps, [] => globFuel f ps []
  | f + 1, '*' :: ps, c :: cs =>
    globFuel f ps (c :: cs) || globFuel f ('*' :: ps) cs
  | _ + 1, _ :: _, [] => false
  | f + 1, p :: ps, c :: cs => (p == '?' || p == c) && globFuel f ps cs

/-- `filepath.Match` on the supported fragment. -/
def globMatch (p s : List Char) : Bool :=
  globFuel (p.length + s.length + 1) p s

/-- `strings.ToLower` (on the ASCII range `Char.toLower` covers). -/
def lowerStr (s : String) : String :=
  String.mk (s.toList.map Char.toLower)

/-- Embedding of `matchPattern`: lower-case both sides when the search is
case-insensitive, then glob-match. Total on the supported fragment. -/
def matchPattern (name pattern : String) (caseSensitive : Bool) : Bool :=
  let n := if caseSensitive then name else lowerStr name
  let p := if caseSensitive then pattern else lowerStr pattern
  globMatch p.toList n.toList

/-- Embedding of `isHidden`: the name starts with a dot. -/
def isHidden (name : String) : Bool :=
  match name.toList with
  | '.' :: _ => true
  | _ => false

/-- Embedding of `searchOptions` (functional options record). -/
structure SearchOpts where
  maxDepth : Int
  minDepth : Int
  followSymlinks : Bool
  caseSensitive : Bool
  wholeWord : Bool
  ignoreHidden : Bool
  limitResults : Int
  includePatterns : List String
  excludePatterns : List String
deriving DecidableEq

/-- Embedding of `defaultSearchOptions`. -/
def defaultSearchOptions : SearchOpts :=
  { maxDepth := -1
    minDepth := 0
    followSymlinks := false
    caseSensitive := true
    wholeWord := false
    ignoreHidden := false
    limitResults := -1
    includePatterns := []
    excludePatterns := [] }

/-- Embedding of `SearchResult`: path (as segments), the `os.FileInfo`
snapshot, what matched, and for content matches the line data
(zero values otherwise, as in Go). -/
structure SearchResult where
  path : List String
  info : EInfo
  matchedBy : String
  lineNumber : Nat
  line : String
deriving DecidableEq

/-- The search visitors mutate a result list and a result counter. -/
abbrev SearchSt := List SearchResult × Nat

/-- Error identities of the toolkit that the modelled operations report. -/
inductive FsxError where
  | searchFiles
  | searchContent
  | invalidRegex
  | invalidPattern
  | compareDirectory
  | walkDirectory
  | fileAlreadyLocked
  | fileNotLocked
  | fileLock
  | deleteFile
  | deleteDirectory
  | deleteDirectoryNotEmpty
deriving DecidableEq

deriving instance DecidableEq for Except

/-- The filtering pipeline steps shared by the search visitors, up to and
including the hidden-entry check (depth bounds, result cap, hidden).
Returns the signal to short-circuit with, if any. -/
def pipelineGate (o : SearchOpts) (s : SearchSt) (info : EInfo) (depth : Nat) :
    Option Sig :=
  if 0 ≤ o.maxDepth ∧ o.maxDepth < (depth : Int) then
    some (if info.isDir then .skipDir else .cont)
  else if (depth : Int) < o.minDepth then
    some .cont
  else if 0 < o.limitResults ∧ o.limitResults ≤ (s.2 : Int) then
    some .eof
  else if o.ignoreHidden = true ∧ isHidden info.name = true then
    some (if info.isDir then .skipDir else .cont)
  else
    none

/-- Shared tail of the six search entry points: a nil or `io.EOF` walk
outcome yields the collected results; any other error is reported as the
given search error. -/
def searchWrap (w : SearchSt × Option WErr) (e : FsxError) :
    Except FsxError (List SearchResult) :=
  match w with
  | (s, none) => .ok s.1
  | (s, some .eof) => .ok s.1
  | (_, some _) => .error e

/-- The visitor of `FindFiles`: depth bounds, result cap, hidden check,
exclude patterns, include patterns, then the name-pattern predicate
(non-directories only). -/
def findFilesVisitor (pattern : String) (o : SearchOpts)
    (s : SearchSt) (path : List String) (info : EInfo) (depth : Nat) :
    SearchSt × Sig :=
  match pipelineGate o s info depth with
  | some sig => (s, sig)
  | none =>
    if o.excludePatterns.any
        (fun ep => matchPattern info.name ep o.caseSensitive) then
      (s, if info.isDir then .skipDir else .cont)
    else if o.includePatterns ≠ [] ∧
        ¬ o.includePatterns.any
          (fun ip => matchPattern info.name ip o.caseSensitive) then
      (s, .cont)
    else if matchPattern info.name pattern o.caseSensitive ∧ info.isDir = false then
      ((s.1 ++ [⟨path, info, "name", 0, ""⟩], s.2 + 1), .cont)
    else
      (s, .cont)

/-- Embedding of `FindFiles`: walk with the name visitor; `io.EOF` from
the walk is a success outcome, any other error reports a search error. -/
def FindFiles (t : FSTree) (rootName : String) (pattern : String)
    (o : SearchOpts) : Except FsxError (List SearchResult) :=
  searchWrap (walkWithDepth (findFilesVisitor pattern o) rootName [rootName] 0 ([], 0) t)
    .searchFiles

/-- The visitor of `FindFilesByRegex`: depth bounds, result cap, hidden
check, then the compiled-regex predicate (non-directories only). No
include/exclude pattern handling appears in the source. -/
def findFilesByRegexVisitor (re : String → Bool) (o : SearchOpts)
    (s : SearchSt) (path : List String) (info : EInfo) (depth : Nat) :
    SearchSt × Sig :=
  match pipelineGate o s info depth with
  | some sig => (s, sig)
  | none =>
    if re info.name = true ∧ info.isDir = false then
      ((s.1 ++ [⟨path, info, "regex", 0, ""⟩], s.2 + 1), .cont)
    else
      (s, .cont)

/-- Embedding of `FindFilesByRegex`; `re` is the compiled matcher of the
pattern (compiled once, before traversal). -/
def FindFilesByRegex (t : FSTree) (rootName : String) (re : String → Bool)
    (o : SearchOpts) : Except FsxError (List SearchResult) :=
  searchWrap (walkWithDepth (findFilesByRegexVisitor re o) rootName [rootName] 0 ([], 0) t)
    .searchFiles

/-- `filepath.Ext` of a single name: the suffix that begins at the final
dot, or the empty string when the name has no dot. -/
def extChars : List Char → Option (List Char)
  | [] => none
  | '.' :: rest =>
    match extChars rest with
    | some r => some r
    | none => some ('.' :: rest)
  | _ :: rest => extChars rest

/-- The file-extension allow-list `isTextFile` checks against. -/
def textExtensions : List String :=
  [".txt", ".log", ".md", ".json", ".xml", ".yaml", ".yml",
   ".go", ".js", ".py", ".java", ".c", ".cpp", ".h", ".hpp",
   ".html", ".css", ".scss", ".less", ".vue", ".jsx", ".tsx",
   ".sh", ".bash", ".zsh", ".fish", ".conf", ".cfg", ".ini",
   ".csv", ".sql", ".rs", ".rb", ".php", ".swift", ".kt"]

/-- Embedding of `isTextFile`: lower-cased extension of the final path
element against the fixed allow-list. -/
def isTextFile (name : String) : Bool :=
  match extChars name.toList with
  | none => false
  | some e => textExtensions.contains (lowerStr (String.mk e))

/-- Split a character run into newline-separated lines. -/
def splitNl : List Char → List Char → List String
  | [], acc => [String.mk acc.reverse]
  | '\n' :: rest, acc => String.mk acc.reverse :: splitNl rest []
  | c :: rest, acc => splitNl rest (c :: acc)

/-- Lines of a file as `bufio.Scanner` produces them: split on newline,
with no empty final line after a trailing newline. -/
def readLines (s : String) : List String :=
  if s = "" then []
  else
    let l := splitNl s.toList []
    if l.getLast? = some "" then l.dropLast else l

/-- Look up the subtree at a relative segment path. -/
def lookupT : FSTree → List String → Option FSTree
  | t, [] => some t
  | .file _ _, _ :: _ => none
  | .dir _ es, n :: rest =>
    match findEnt es n with
    | some c => lookupT c rest
    | none => none
where
  /-- First child with the given name. -/
  findEnt : Ents → String → Option FSTree
  | .enil, _ => none
  | .econs n c rest, m => if n = m then some c else findEnt rest m

/-- Content of the regular file at a relative segment path, if any. -/
def contentAt (t : FSTree) (p : List String) : Option String :=
  match lookupT t p with
  | some (.file _ co) => some co
  | _ => none

/-- `strings.Fields`: maximal runs of non-whitespace characters. -/
def strFields (s : String) : List String :=
  ((s.toList.splitOnP (fun c => c.isWhitespace)).filter
    (fun w => w ≠ [])).map String.mk

/-- `strings.Contains`: the pattern occurs as a contiguous run. -/
def strContains : List Char → List Char → Bool
  | [], pat => pat.isEmpty
  | c :: rest, pat => pat.isPrefixOf (c :: rest) || strContains rest pat

/-- One line check of the content search: lower-case the line when the
search is case-insensitive, then whole-word or substring match against
the prepared pattern. -/
def lineMatches (caseSensitive wholeWord : Bool) (pat : String)
    (line : String) : Bool :=
  let searchLine := if caseSensitive then line else lowerStr line
  if wholeWord then (strFields searchLine).any (fun w => w == pat)
  else strContains searchLine.toList pat.toList

/-- First matching line of a file (index from 0), as the line loop of
`FindFilesByContent` finds it before breaking to the next file. -/
def firstMatchingLine (caseSensitive wholeWord : Bool) (pat : String) :
    List String → Nat → Option (Nat × String)
  | [], _ => none
  | l :: ls, i =>
    if lineMatches caseSensitive wholeWord pat l then some (i, l)
    else firstMatchingLine caseSensitive wholeWord pat ls (i + 1)

/-- The visitor of `FindFilesByContent`: depth bounds, result cap, hidden
check, skip directories and non-text files, then scan the file lines and
record the first match (one result per matching file). The tree `t` is
the searched root, through which `ReadFileLines` reads content; the
visitor path starts with the root name, so the relative path is its
tail. Unreadable files cannot arise on the modelled tree. -/
def findFilesByContentVisitor (t : FSTree) (pat : String) (o : SearchOpts)
    (s : SearchSt) (path : List String) (info : EInfo) (depth : Nat) :
    SearchSt × Sig :=
  match pipelineGate o s info depth with
  | some sig => (s, sig)
  | none =>
    if info.isDir = true ∨ isTextFile info.name = false then
      (s, .cont)
    else
      match contentAt t (path.drop 1) with
      | none => (s, .cont)
      | some co =>
        match firstMatchingLine o.caseSensitive o.wholeWord pat (readLines co) 0 with
        | none => (s, .cont)
        | some (i, line) =>
          let s1 : SearchSt :=
            (s.1 ++ [⟨path, info, "content", i + 1, line⟩], s.2 + 1)
          if 0 < o.limitResults ∧ o.limitResults ≤ (s1.2 : Int) then
            (s1, .eof)
          else
            (s1, .cont)

/-- Embedding of `FindFilesByContent`: the search pattern is lower-cased
up front when case-insensitive; a failing walk reports a content error. -/
def FindFilesByContent (t : FSTree) (rootName : String) (content : String)
    (o : SearchOpts) : Except FsxError (List SearchResult) :=
  let pat := if o.caseSensitive then content else lowerStr content
  searchWrap (walkWithDepth (findFilesByContentVisitor t pat o)
    rootName [rootName] 0 ([], 0) t) .searchContent

/-- The visitor of `FindFilesBySize`: depth bounds, result cap, hidden
check, then the inclusive size-range predicate (negative bound = open),
non-directories only. -/
def findFilesBySizeVisitor (minSize maxSize : Int) (o : SearchOpts)
    (s : SearchSt) (path : List String) (info : EInfo) (depth : Nat) :
    SearchSt × Sig :=
  match pipelineGate o s info depth with
  | some sig => (s, sig)
  | none =>
    if info.isDir = false then
      if (minSize < 0 ∨ minSize ≤ info.size) ∧
          (maxSize < 0 ∨ info.size ≤ maxSize) then
        ((s.1 ++ [⟨path, info, "size", 0, ""⟩], s.2 + 1), .cont)
      else (s, .cont)
    else (s, .cont)

/-- Embedding of `FindFilesBySize`. -/
def FindFilesBySize (t : FSTree) (rootName : String) (minSize maxSize : Int)
    (o : SearchOpts) : Except FsxError (List SearchResult) :=
  searchWrap (walkWithDepth (findFilesBySizeVisitor minSize maxSize o)
    rootName [rootName] 0 ([], 0) t) .searchFiles

/-- The visitor of `FindFilesByTime`: depth bounds, result cap, hidden
check, then the open time-range predicate (`none` models the zero
`time.Time`; comparisons are strict, as `After`/`Before` are),
non-directories only. -/
def findFilesByTimeVisitor (after before : Option Int) (o : SearchOpts)
    (s : SearchSt) (path : List String) (info : EInfo) (depth : Nat) :
    SearchSt × Sig :=
  match pipelineGate o s info depth with
  | some sig => (s, sig)
  | none =>
    if info.isDir = false then
      if (after = none ∨ ∃ a, after = some a ∧ a < info.mtime) ∧
          (before = none ∨ ∃ b, before = some b ∧ info.mtime < b) then
        ((s.1 ++ [⟨path, info, "time", 0, ""⟩], s.2 + 1), .cont)
      else (s, .cont)
    else (s, .cont)

/-- Embedding of `FindFilesByTime`. -/
def FindFilesByTime (t : FSTree) (rootName : String) (after before : Option Int)
    (o : SearchOpts) : Except FsxError (List SearchResult) :=
  searchWrap (walkWithDepth (findFilesByTimeVisitor after before o)
    rootName [rootName] 0 ([], 0) t) .searchFiles

/-- The visitor of `FindFilesByPermissions`: depth bounds, result cap,
hidden check, then exact or at-least permission match on
`Mode().Perm()`, non-directories only. -/
def findFilesByPermissionsVisitor (mode : Nat) (exact : Bool) (o : SearchOpts)
    (s : SearchSt) (path : List String) (info : EInfo) (depth : Nat) :
    SearchSt × Sig :=
  match pipelineGate o s info depth with
  | some sig => (s, sig)
  | none =>
    if info.isDir = false then
      if (if exact then info.perm = mode else info.perm &&& mode = mode) then
        ((s.1 ++ [⟨path, info, "permissions", 0, ""⟩], s.2 + 1), .cont)
      else (s, .cont)
    else (s, .cont)

/-- Embedding of `FindFilesByPermissions`. -/
def FindFilesByPermissions (t : FSTree) (rootName : String) (mode : Nat)
    (exact : Bool) (o : SearchOpts) : Except FsxError (List SearchResult) :=
  searchWrap (walkWithDepth (findFilesByPermissionsVisitor mode exact o)
    rootName [rootName] 0 ([], 0) t) .searchFiles

/-- `os.FileInfo` snapshot stored by the differ maps (name plays no role
in the comparison, so it is not kept). -/
structure FInfo where
  isDir : Bool
  size : Int
  mtime : Int
deriving DecidableEq

/-- Classification of a difference (`DifferenceType`). -/
inductive DiffType where
  | added
  | removed
  | modified
  | same
deriving DecidableEq

/-- Embedding of `Difference`: relative path, classification, and the
side snapshots (absent on the side the path is missing from). -/
structure Difference where
  path : List String
  type : DiffType
  leftInfo : Option FInfo
  rightInfo : Option FInfo
deriving DecidableEq

mutual

/-- The path→info collection pass of `CompareDirectories`: a full
`filepath.Walk`, keyed by path relative to the walked root (the root
itself has relative path `[]`, Go's "."). -/
def collectT : FSTree → List String → List (List String × FInfo)
  | .file m _, rel => [(rel, ⟨false, m.size, m.mtime⟩)]
  | .dir m es, rel => (rel, ⟨true, m.size, m.mtime⟩) :: collectE es rel

/-- Collection over a sibling list. -/
def collectE : Ents → List String → List (List String × FInfo)
  | .enil, _ => []
  | .econs n c rest, rel => collectT c (rel ++ [n]) ++ collectE rest rel

end

/-- The per-path classification of the left-map loop of
`CompareDirectories`, given the left info and the right-map lookup:
missing right is removed; kind mismatch is modified; two files are
modified when size or second-truncated mtime differ, else same; two
directories produce no difference. -/
def classifyLeft (p : List String) (li : FInfo) :
    Option FInfo → Option Difference
  | some ri =>
    if li.isDir = ri.isDir then
      if li.isDir then none
      else if li.size ≠ ri.size ∨ unixSec li.mtime ≠ unixSec ri.mtime then
        some ⟨p, .modified, some li, some ri⟩
      else
        some ⟨p, .same, some li, some ri⟩
    else
      some ⟨p, .modified, some li, some ri⟩
  | none => some ⟨p, .removed, some li, none⟩

/-- Embedding of `CompareDirectories`: fail unless both roots are
directories; collect both path→info maps; classify every left path
against the right map; then report right-only paths as added. -/
def CompareDirectories (l r : FSTree) : Option (List Difference) :=
  if l.isDirT = true ∧ r.isDirT = true then
    let lf := collectT l []
    let rf := collectT r []
    some
      ((lf.filterMap fun e => classifyLeft e.1 e.2 (List.lookup e.1 rf)) ++
        (rf.filterMap fun e =>
          match List.lookup e.1 lf with
          | some _ => none
          | none => some ⟨e.1, .added, none, some e.2⟩))
  else
    none

/-- Some difference in the sequence classifies path `p` as `ty`. -/
def classifiedAs (ds : List Difference) (p : List String) (ty : DiffType) : Prop :=
  ∃ d ∈ ds, d.path = p ∧ d.type = ty

mutual

/-- The regular files of a tree with their absolute paths and contents,
in walk order (`FindDuplicateFiles` hashes exactly these). -/
def filesT : FSTree → List String → List (List String × String)
  | .file _ co, path => [(path, co)]
  | .dir _ _es, path => filesE _es path

/-- Files over a sibling list. -/
def filesE : Ents → List String → List (List String × String)
  | .enil, _ => []
  | .econs n c rest, path => filesT c (path ++ [n]) ++ filesE rest path

end

/-- `fileHashes[hashStr] = append(fileHashes[hashStr], path)` on the
insertion-ordered association list modelling the Go map. -/
def addHash (m : List (String × List (List String))) (k : String)
    (p : List String) : List (String × List (List String)) :=
  match m with
  | [] => [(k, [p])]
  | (k1, ps) :: rest =>
    if k1 = k then (k1, ps ++ [p]) :: rest else (k1, ps) :: addHash rest k p

/-- The hashing pass of `FindDuplicateFiles`: group every file path under
the digest of its full content. `h` is the content digest function (MD5
over the streamed bytes in the source). -/
def hashGroups (h : String → String) (fs : List (List String × String)) :
    List (String × List (List String)) :=
  fs.foldl (fun m e => addHash m (h e.2) e.1) []

/-- Embedding of `FindDuplicateFiles`: hash every regular file under the
root, then keep only digests with two or more paths. -/
def FindDuplicateFiles (h : String → String) (t : FSTree) :
    List (String × List (List String)) :=
  (hashGroups h (filesT t [])).filter (fun g => 1 < g.2.length)

/-- The process-wide lock-manager state: every `FileLock` ever created
(identified by a numeric handle; path and `isLocked` flag), the next
fresh handle, and the `lockManager` registry mapping a path to the
registered lock's handle. -/
structure LockSt where
  locks : List (Nat × String × Bool)
  nextId : Nat
  registry : List (String × Nat)
deriving DecidableEq

/-- The empty lock-manager state at process start. -/
def LockSt.empty : LockSt := ⟨[], 0, []⟩

/-- The `exists && existingLock.isLocked` test of `LockFile`: the
registry maps `path` to a lock that is currently marked locked. -/
def registeredLocked (s : LockSt) (path : String) : Bool :=
  match List.lookup path s.registry with
  | some id =>
    match List.lookup id s.locks with
    | some st => st.2
    | none => false
  | none => false

/-- Map assignment `registry[path] = id` (unordered map, so the entry may
move to the end). -/
def setReg (reg : List (String × Nat)) (path : String) (id : Nat) :
    List (String × Nat) :=
  reg.filter (fun e => e.1 ≠ path) ++ [(path, id)]

/-- Map deletion `delete(registry, path)`. -/
def delReg (reg : List (String × Nat)) (path : String) : List (String × Nat) :=
  reg.filter (fun e => e.1 ≠ path)

/-- Embedding of `LockFile`: under the global registry mutex, fail with
the already-locked error when the registry holds a locked lock for the
path; otherwise create/open the backing file (never fails on the model),
register a fresh locked `FileLock`, and return its handle. -/
def LockFile (s : LockSt) (path : String) : LockSt × Except FsxError Nat :=
  if registeredLocked s path = true then
    (s, .error .fileAlreadyLocked)
  else
    (⟨s.locks ++ [(s.nextId, path, true)], s.nextId + 1,
      setReg s.registry path s.nextId⟩, .ok s.nextId)

/-- Embedding of `FileLock.Unlock`: fail with the not-locked error when
the lock is not marked locked; otherwise close the handle (never fails
on the model), delete the registry entry for the lock's path, and mark
the lock unlocked. A handle that was never created behaves as unlocked. -/
def Unlock (s : LockSt) (id : Nat) : LockSt × Except FsxError Unit :=
  match List.lookup id s.locks with
  | some (p, locked) =>
    if locked = false then (s, .error .fileNotLocked)
    else
      (⟨s.locks.map (fun e => if e.1 = id then (e.1, p, false) else e),
        s.nextId, delReg s.registry p⟩, .ok ())
  | none => (s, .error .fileNotLocked)

/-- A flat model of the filesystem for the deletion entry points: the set
of existing paths with their directory flag. -/
abbrev FS := List (String × Bool)

/-- Embedding of `FileExist`: the path stats and is not a directory. -/
def fileExist (fs : FS) (p : String) : Bool :=
  match List.lookup p fs with
  | some d => !d
  | none => false

/-- Embedding of `DirectoryExist`: the path stats and is a directory. -/
def directoryExist (fs : FS) (p : String) : Bool :=
  match List.lookup p fs with
  | some d => d
  | none => false

/-- Remove the single path (`os.Remove` on a file or an empty dir). -/
def removePath (fs : FS) (p : String) : FS :=
  fs.filter (fun e => e.1 ≠ p)

/-- Whether the directory has any entry strictly below it. -/
def hasChild (fs : FS) (p : String) : Bool :=
  fs.any (fun e => List.isPrefixOf (p.toList ++ ['/']) e.1.toList)

/-- Remove the path and everything below it (`os.RemoveAll`). -/
def removeTree (fs : FS) (p : String) : FS :=
  fs.filter (fun e => e.1 ≠ p ∧ List.isPrefixOf (p.toList ++ ['/']) e.1.toList = false)

/-- Embedding of `DeleteFile`: return nil when the target does not exist
as a file; otherwise remove it (`os.Remove` never fails on the model). -/
def DeleteFile (fs : FS) (p : String) : FS × Except FsxError Unit :=
  if fileExist fs p = false then (fs, .ok ())
  else (removePath fs p, .ok ())

/-- The `recursive` / `force` knobs of the directory options. -/
structure DirOpts where
  recursive : Bool
  force : Bool
deriving DecidableEq

/-- Embedding of `DeleteDirectory`: return nil when the target does not
exist as a directory; with `recursive` or `force` remove the whole
subtree; otherwise `os.Remove`, which fails with the not-empty error
exactly when the directory still has entries. -/
def DeleteDirectory (fs : FS) (p : String) (o : DirOpts) :
    FS × Except FsxError Unit :=
  if directoryExist fs p = false then (fs, .ok ())
  else if o.recursive = true ∨ o.force = true then (removeTree fs p, .ok ())
  else if hasChild fs p = true then (fs, .error .deleteDirectoryNotEmpty)
  else (removePath fs p, .ok ())

/-- Whether a sibling list contains an entry with the given name. -/
def hasName : Ents → String → Bool
  | .enil, _ => false
  | .econs n _ rest, m => n == m || hasName rest m

mutual

/-- Well-formedness of a tree as a filesystem image: sibling names are
distinct at every level (guaranteed for any real directory tree). -/
def wfT : FSTree → Bool
  | .file _ _ => true
  | .dir _ es => wfE es

/-- Well-formedness of a sibling list. -/
def wfE : Ents → Bool
  | .enil => true
  | .econs n c rest => !(hasName rest n) && wfT c && wfE rest

end

/-! ## Association-list helper lemmas -/

theorem lookup_filter_none {α β : Type} [BEq α] [LawfulBEq α] (a : α)
    (q : α × β → Bool) (l : List (α × β)) (h : ∀ e, q e = true → e.1 ≠ a) :
    List.lookup a (l.filter q) = none := by
  induction l with
  | nil => rfl
  | cons e l ih =>
    by_cases hq : q e = true
    · have hne : e.1 ≠ a := h e hq
      rcases e with ⟨k, b⟩
      simp only [List.filter_cons, hq, if_pos]
      simp only [List.lookup_cons]
      have : (a == k) = false := by
        simp only [beq_eq_false_iff_ne]
        exact fun hh => hne hh.symm
      simp [this, ih]
    · simp only [List.filter_cons, hq]
      simpa using ih

theorem mem_of_lookup_eq_some {α β : Type} [BEq α] [LawfulBEq α] {a : α} {b : β}
    {l : List (α × β)} (h : List.lookup a l = some b) : (a, b) ∈ l := by
  induction l with
  | nil => simp at h
  | cons e l ih =>
    rcases e with ⟨k, v⟩
    rcases hk : (a == k) with _ | _
    · simp only [List.lookup_cons, hk] at h
      exact List.mem_cons_of_mem _ (ih h)
    · simp only [List.lookup_cons, hk] at h
      have : a = k := by simpa using hk
      subst this
      cases h
      exact List.mem_cons_self _ _

theorem lookup_eq_some_of_mem_nodup {α β : Type} [BEq α] [LawfulBEq α] {a : α}
    {b : β} {l : List (α × β)} (nd : (l.map Prod.fst).Nodup)
    (h : (a, b) ∈ l) : List.lookup a l = some b := by
  induction l with
  | nil => simp at h
  | cons e l ih =>
    rcases e with ⟨k, v⟩
    simp only [List.map_cons, List.nodup_cons] at nd
    rcases List.mem_cons.mp h with h1 | h1
    · cases h1
      simp [List.lookup_cons]
    · have hne : a ≠ k := by
        intro hh
        subst hh
        exact nd.1 (List.mem_map.mpr ⟨(a, b), h1, rfl⟩)
      have : (a == k) = false := by simpa using hne
      simp only [List.lookup_cons, this]
      exact ih nd.2 h1

theorem lookup_eq_none_iff {α β : Type} [BEq α] [LawfulBEq α] {a : α}
    {l : List (α × β)} : List.lookup a l = none ↔ ∀ b, (a, b) ∉ l := by
  induction l with
  | nil => simp
  | cons e l ih =>
    rcases e with ⟨k, v⟩
    rcases hk : (a == k) with _ | _
    · have hne : a ≠ k := by simpa using hk
      simp only [List.lookup_cons, hk]
      rw [ih]
      constructor
      · intro h b hmem
        rcases List.mem_cons.mp hmem with h1 | h1
        · exact hne (by cases h1; rfl)
        · exact h b h1
      · intro h b hmem
        exact h b (List.mem_cons_of_mem _ hmem)
    · have : a = k := by simpa using hk
      subst this
      simp only [List.lookup_cons, hk]
      constructor
      · intro h
        cases h
      · intro h
        exact absurd (List.mem_cons_self _ _) (h v)

/-! ## C10: deletion of a missing target is a success -/

/-- C10: `DeleteFile` and `DeleteDirectory` return nil (not a not-found
error) when the target does not exist, and both are idempotent at the
public interface: repeating either call reproduces the same state and
the same outcome. -/
theorem c10_delete_missing_is_nil :
    ∀ (fs : FS) (p : String) (o : DirOpts),
      (fileExist fs p = false → DeleteFile fs p = (fs, Except.ok ())) ∧
      (directoryExist fs p = false → DeleteDirectory fs p o = (fs, Except.ok ())) ∧
      DeleteFile (DeleteFile fs p).1 p = DeleteFile fs p ∧
      DeleteDirectory (DeleteDirectory fs p o).1 p o = DeleteDirectory fs p o := by
  intro fs p o
  have hrem : fileExist (removePath fs p) p = false := by
    unfold fileExist removePath
    rw [lookup_filter_none (h := fun e he => by simpa using he)]
  have hremD : directoryExist (removeTree fs p) p = false := by
    unfold directoryExist removeTree
    rw [lookup_filter_none (h := fun e he => by
      rcases e with ⟨k, v⟩
      simp only [Bool.decide_and, Bool.and_eq_true, decide_eq_true_eq] at he
      exact he.1)]
  have hremD2 : directoryExist (removePath fs p) p = false := by
    unfold directoryExist removePath
    rw [lookup_filter_none (h := fun e he => by simpa using he)]
  refine ⟨fun h => by simp [DeleteFile, h], fun h => by simp [DeleteDirectory, h], ?_, ?_⟩
  · by_cases h : fileExist fs p = false
    · simp [DeleteFile, h]
    · simp only [DeleteFile, h, if_neg, if_false]
      simp [hrem]
  · by_cases h : directoryExist fs p = false
    · simp [DeleteDirectory, h]
    · by_cases hro : o.recursive = true ∨ o.force = true
      · simp [DeleteDirectory, h, hro, hremD]
      · by_cases hch : hasChild fs p = true
        · simp [DeleteDirectory, h, hro, hch]
        · simp [DeleteDirectory, h, hro, hch, hremD2]

/-- C10 witness: on a one-file filesystem, deleting the missing file `b`
and the missing directory `b` both return nil and leave the state alone. -/
theorem c10_witness :
    (fileExist [("a", false)] "b" = false ∧
      DeleteFile [("a", false)] "b" = ([("a", false)], Except.ok ())) ∧
    (directoryExist [("a", false)] "b" = false ∧
      DeleteDirectory [("a", false)] "b" ⟨false, false⟩ =
        ([("a", false)], Except.ok ())) :=
  ⟨⟨by decide, (c10_delete_missing_is_nil [("a", false)] "b" ⟨false, false⟩).1 (by decide)⟩,
    ⟨by decide, (c10_delete_missing_is_nil [("a", false)] "b" ⟨false, false⟩).2.1 (by decide)⟩⟩

/-! ## C3: lock manager state machine -/

/-- C3: `LockFile` fails with the already-locked error whenever the
registry maps the path to a lock marked locked; `Unlock` on an unlocked
lock fails with the not-locked error; and a successful `Unlock` removes
the registry entry, after which `LockFile` on the same path succeeds. -/
theorem c3_lock_lifecycle :
    ∀ (s : LockSt) (path : String) (id : Nat) (pth : String),
      (registeredLocked s path = true →
        LockFile s path = (s, Except.error FsxError.fileAlreadyLocked)) ∧
      (List.lookup id s.locks = some (pth, false) →
        Unlock s id = (s, Except.error FsxError.fileNotLocked)) ∧
      (∀ s1, List.lookup id s.locks = some (pth, true) →
        Unlock s id = (s1, Except.ok ()) →
        List.lookup pth s1.registry = none ∧
          ∃ s2 nid, LockFile s1 pth = (s2, Except.ok nid)) := by
  intro s path id pth
  refine ⟨fun h => by simp [LockFile, h], fun h => by simp [Unlock, h], ?_⟩
  intro s1 hlk hun
  have hcomp : Unlock s id =
      (⟨s.locks.map (fun e => if e.1 = id then (e.1, pth, false) else e),
        s.nextId, delReg s.registry pth⟩, Except.ok ()) := by
    simp [Unlock, hlk]
  rw [hcomp] at hun
  have hs1 : s1 = ⟨s.locks.map (fun e => if e.1 = id then (e.1, pth, false) else e),
      s.nextId, delReg s.registry pth⟩ := by
    have := congrArg Prod.fst hun
    simpa using this.symm
  have hnone : List.lookup pth s1.registry = none := by
    rw [hs1]
    exact lookup_filter_none _ _ _ (fun e he => by simpa using he)
  refine ⟨hnone, ?_⟩
  have hrl : registeredLocked s1 pth = false := by
    unfold registeredLocked
    rw [hnone]
  refine ⟨⟨s1.locks ++ [(s1.nextId, pth, true)], s1.nextId + 1,
    setReg s1.registry pth s1.nextId⟩, s1.nextId, ?_⟩
  simp [LockFile, hrl]

/-- C3 witness: lock path `p` in the empty state, observe the second
acquire fail as already-locked, unlock, observe double-unlock fail as
not-locked, and observe a fresh acquire succeed. -/
theorem c3_witness :
    (registeredLocked (LockFile LockSt.empty "p").1 "p" = true ∧
      LockFile (LockFile LockSt.empty "p").1 "p" =
        ((LockFile LockSt.empty "p").1, Except.error FsxError.fileAlreadyLocked)) ∧
    (List.lookup 0 (Unlock (LockFile LockSt.empty "p").1 0).1.locks = some ("p", false) ∧
      Unlock (Unlock (LockFile LockSt.empty "p").1 0).1 0 =
        ((Unlock (LockFile LockSt.empty "p").1 0).1, Except.error FsxError.fileNotLocked)) ∧
    (List.lookup 0 (LockFile LockSt.empty "p").1.locks = some ("p", true) ∧
      List.lookup "p" (Unlock (LockFile LockSt.empty "p").1 0).1.registry = none ∧
      ∃ s2 nid, LockFile (Unlock (LockFile LockSt.empty "p").1 0).1 "p" =
        (s2, Except.ok nid)) :=
  ⟨⟨by decide,
      (c3_lock_lifecycle (LockFile LockSt.empty "p").1 "p" 0 "p").1 (by decide)⟩,
    ⟨by decide,
      (c3_lock_lifecycle (Unlock (LockFile LockSt.empty "p").1 0).1 "p" 0 "p").2.1 (by decide)⟩,
    ⟨by decide,
      ((c3_lock_lifecycle (LockFile LockSt.empty "p").1 "p" 0 "p").2.2
        (Unlock (LockFile LockSt.empty "p").1 0).1 (by decide) (by decide))⟩⟩

/-! ## C7: child-subtree errors are swallowed during descent -/

/-- The child loop of the walker only finishes with a nil error or the
abort signal, whatever the children do (proof by recursion on the
sibling list; the child walks are handled by case analysis alone). -/
def walkEntries_res {σ : Type} (fn : σ → List String → EInfo → Nat → σ × Sig)
    (path : List String) (depth : Nat) :
    (es : Ents) → ∀ s : σ,
      (walkEntries fn path depth s es).2 = none ∨
        (walkEntries fn path depth s es).2 = some WErr.eof
  | .enil => fun _ => Or.inl rfl
  | .econs n c rest => fun s => by
    rcases hw : walkWithDepth fn n (path ++ [n]) (depth + 1) s c with ⟨s1, r⟩
    rcases r with _ | w
    · simpa [walkEntries, hw] using walkEntries_res fn path depth rest s1
    · rcases w with _ | _ | cc
      · right
        simp [walkEntries, hw]
      · simpa [walkEntries, hw] using walkEntries_res fn path depth rest s1
      · simpa [walkEntries, hw] using walkEntries_res fn path depth rest s1

/-- C7: during recursive descent, the child loop of `walkWithDepth` can
only finish with a nil error or the abort signal (a child's generic
error never propagates); a generic failure outcome of a walk always
comes from the node's own visit; and after a child finishes with any
non-abort outcome the loop continues with the remaining siblings. -/
theorem c7_child_errors_swallowed :
    (∀ (σ : Type) (fn : σ → List String → EInfo → Nat → σ × Sig)
        (path : List String) (depth : Nat) (s : σ) (es : Ents),
      (walkEntries fn path depth s es).2 = none ∨
        (walkEntries fn path depth s es).2 = some WErr.eof) ∧
    (∀ (σ : Type) (fn : σ → List String → EInfo → Nat → σ × Sig)
        (name : String) (path : List String) (depth : Nat) (s : σ)
        (t : FSTree) (c : Nat),
      (walkWithDepth fn name path depth s t).2 = some (WErr.fail c) →
        (fn s path (einfoOf name t) depth).2 = Sig.err c) ∧
    (∀ (σ : Type) (fn : σ → List String → EInfo → Nat → σ × Sig)
        (path : List String) (depth : Nat) (s : σ) (n : String)
        (c : FSTree) (rest : Ents),
      (walkWithDepth fn n (path ++ [n]) (depth + 1) s c).2 ≠ some WErr.eof →
        walkEntries fn path depth s (Ents.econs n c rest) =
          walkEntries fn path depth
            (walkWithDepth fn n (path ++ [n]) (depth + 1) s c).1 rest) := by
  refine ⟨fun σ fn path depth s es => walkEntries_res fn path depth es s, ?_, ?_⟩
  · intro σ fn name path depth s t c hfail
    cases t with
    | file m co =>
      rcases hv : fn s path (einfoOf name (.file m co)) depth with ⟨s1, sig⟩
      cases sig <;> simp [walkWithDepth, hv] at hfail ⊢
      omega
    | dir m es =>
      rcases hv : fn s path (einfoOf name (.dir m es)) depth with ⟨s1, sig⟩
      cases sig with
      | cont =>
        exfalso
        rcases walkEntries_res fn path depth es s1 with h1 | h1 <;>
          simp [walkWithDepth, hv, h1] at hfail
      | skipDir => simp [walkWithDepth, hv] at hfail
      | eof => simp [walkWithDepth, hv] at hfail
      | err cc =>
        simp [walkWithDepth, hv] at hfail ⊢
        omega
  · intro σ fn path depth s n c rest hne
    rcases hw : walkWithDepth fn n (path ++ [n]) (depth + 1) s c with ⟨s1, r⟩
    rcases r with _ | w
    · simp [walkEntries, hw]
    · rcases w with _ | _ | cc
      · exact absurd (by rw [hw]) hne
      · simp [walkEntries, hw]
      · simp [walkEntries, hw]

/-- C7 witness: a two-child directory where the first child's visit
returns a generic error: the walk reports a nil error overall, the
error is attributed to the child's own visit, and the loop still
reaches the second child. -/
theorem c7_witness :
    ((walkWithDepth (fun (s : Nat) (path : List String) (_ : EInfo) (_ : Nat) =>
        (s + 1, if path = ["r", "bad"] then Sig.err 7 else Sig.cont))
        "bad" (["r"] ++ ["bad"]) (0 + 1) 0 (FSTree.file ⟨0, 0, 0⟩ "x")).2 ≠
          some WErr.eof ∧
      walkEntries (fun (s : Nat) (path : List String) (_ : EInfo) (_ : Nat) =>
        (s + 1, if path = ["r", "bad"] then Sig.err 7 else Sig.cont))
        ["r"] 0 0
        (Ents.econs "bad" (FSTree.file ⟨0, 0, 0⟩ "x")
          (Ents.econs "ok" (FSTree.file ⟨0, 0, 0⟩ "y") Ents.enil)) =
        walkEntries (fun (s : Nat) (path : List String) (_ : EInfo) (_ : Nat) =>
          (s + 1, if path = ["r", "bad"] then Sig.err 7 else Sig.cont))
          ["r"] 0
          (walkWithDepth (fun (s : Nat) (path : List String) (_ : EInfo) (_ : Nat) =>
            (s + 1, if path = ["r", "bad"] then Sig.err 7 else Sig.cont))
            "bad" (["r"] ++ ["bad"]) (0 + 1) 0 (FSTree.file ⟨0, 0, 0⟩ "x")).1
          (Ents.econs "ok" (FSTree.file ⟨0, 0, 0⟩ "y") Ents.enil)) ∧
    ((walkWithDepth (fun (s : Nat) (path : List String) (_ : EInfo) (_ : Nat) =>
        (s + 1, if path = ["r", "bad"] then Sig.err 7 else Sig.cont))
        "bad" ["r", "bad"] 1 0 (FSTree.file ⟨0, 0, 0⟩ "x")).2 =
          some (WErr.fail 7) ∧
      ((fun (s : Nat) (path : List String) (_ : EInfo) (_ : Nat) =>
        (s + 1, if path = ["r", "bad"] then Sig.err 7 else Sig.cont)) 0 ["r", "bad"]
          (einfoOf "bad" (FSTree.file ⟨0, 0, 0⟩ "x")) 1).2 = Sig.err 7) :=
  ⟨⟨by decide,
      c7_child_errors_swallowed.2.2 Nat
        (fun s path _ _ => (s + 1, if path = ["r", "bad"] then Sig.err 7 else Sig.cont))
        ["r"] 0 0 "bad" (FSTree.file ⟨0, 0, 0⟩ "x")
        (Ents.econs "ok" (FSTree.file ⟨0, 0, 0⟩ "y") Ents.enil) (by decide)⟩,
    ⟨by decide,
      c7_child_errors_swallowed.2.1 Nat
        (fun s path _ _ => (s + 1, if path = ["r", "bad"] then Sig.err 7 else Sig.cont))
        "bad" ["r", "bad"] 1 0 (FSTree.file ⟨0, 0, 0⟩ "x") 7 (by decide)⟩⟩

/-! ## C5: duplicate groups -/

/-- The paths currently grouped under a digest (`fileHashes[k]`). -/
def groupOf (m : List (String × List (List String))) (k : String) :
    List (List String) :=
  (List.lookup k m).getD []

theorem addHash_groupOf_same (m : List (String × List (List String)))
    (k : String) (p : List String) :
    groupOf (addHash m k p) k = groupOf m k ++ [p] := by
  induction m with
  | nil => simp [addHash, groupOf]
  | cons e m ih =>
    rcases e with ⟨k1, ps⟩
    by_cases hk : k1 = k
    · subst hk
      simp [addHash, groupOf, List.lookup_cons]
    · have hbeq : (k == k1) = false := by
        simp only [beq_eq_false_iff_ne]
        exact fun hh => hk hh.symm
      simp only [addHash, if_neg hk]
      simpa [groupOf, List.lookup_cons, hbeq] using ih

theorem addHash_groupOf_ne (m : List (String × List (List String)))
    (k p_ : String) (pp : List String) (h : p_ ≠ k) :
    groupOf (addHash m k pp) p_ = groupOf m p_ := by
  induction m with
  | nil => simp [addHash, groupOf, List.lookup_cons, beq_eq_false_iff_ne.mpr h]
  | cons e m ih =>
    rcases e with ⟨k1, ps⟩
    by_cases hk : k1 = k
    · subst hk
      simp [addHash, groupOf, List.lookup_cons, beq_eq_false_iff_ne.mpr h]
    · by_cases hp : p_ = k1
      · subst hp
        simp [addHash, if_neg hk, groupOf, List.lookup_cons]
      · simp only [addHash, if_neg hk]
        simpa [groupOf, List.lookup_cons, beq_eq_false_iff_ne.mpr hp] using ih

theorem addHash_keys (m : List (String × List (List String)))
    (k : String) (p : List String) :
    (addHash m k p).map Prod.fst =
      if k ∈ m.map Prod.fst then m.map Prod.fst else m.map Prod.fst ++ [k] := by
  induction m with
  | nil => simp [addHash]
  | cons e m ih =>
    rcases e with ⟨k1, ps⟩
    by_cases hk : k1 = k
    · subst hk
      simp [addHash]
    · have : ¬ k = k1 := fun hh => hk hh.symm
      simp only [addHash, if_neg hk, List.map_cons, List.mem_cons, this, false_or]
      rw [ih]
      by_cases hm : k ∈ m.map Prod.fst <;> simp [hm]

theorem addHash_nodupKeys (m : List (String × List (List String)))
    (k : String) (p : List String) (nd : (m.map Prod.fst).Nodup) :
    ((addHash m k p).map Prod.fst).Nodup := by
  rw [addHash_keys]
  by_cases hm : k ∈ m.map Prod.fst
  · simpa [hm] using nd
  · rw [if_neg hm]
    simp only [List.nodup_append, List.nodup_cons, List.nodup_nil]
    refine ⟨nd, by simp, ?_⟩
    intro x hx
    simp only [List.mem_singleton]
    intro hxk
    subst hxk
    exact hm hx

theorem foldl_addHash_groupOf (h : String → String) :
    ∀ (fs : List (List String × String)) (m : List (String × List (List String)))
      (k : String),
      groupOf (fs.foldl (fun m e => addHash m (h e.2) e.1) m) k =
        groupOf m k ++ (fs.filter (fun e => h e.2 == k)).map Prod.fst := by
  intro fs
  induction fs with
  | nil => simp
  | cons e fs ih =>
    intro m k
    by_cases hk : h e.2 = k
    · simp only [List.foldl_cons, List.filter_cons, hk, beq_self_eq_true, if_pos,
        List.map_cons]
      rw [ih, ← hk, addHash_groupOf_same]
      simp
    · have hbeq : (h e.2 == k) = false := beq_eq_false_iff_ne.mpr hk
      simp only [List.foldl_cons, List.filter_cons, hbeq, Bool.false_eq_true,
        if_false]
      rw [ih, addHash_groupOf_ne _ _ _ _ (fun hh => hk hh.symm)]

theorem foldl_addHash_nodupKeys (h : String → String) :
    ∀ (fs : List (List String × String)) (m : List (String × List (List String))),
      (m.map Prod.fst).Nodup →
      (((fs.foldl (fun m e => addHash m (h e.2) e.1) m)).map Prod.fst).Nodup := by
  intro fs
  induction fs with
  | nil => intro m nd; simpa using nd
  | cons e fs ih =>
    intro m nd
    exact ih _ (addHash_nodupKeys _ _ _ nd)

theorem hashGroups_groupOf (h : String → String)
    (fs : List (List String × String)) (k : String) :
    groupOf (hashGroups h fs) k = (fs.filter (fun e => h e.2 == k)).map Prod.fst := by
  unfold hashGroups
  rw [foldl_addHash_groupOf]
  simp [groupOf]

theorem hashGroups_nodupKeys (h : String → String)
    (fs : List (List String × String)) :
    ((hashGroups h fs).map Prod.fst).Nodup :=
  foldl_addHash_nodupKeys h fs [] (by simp)

/-- C5: every group `FindDuplicateFiles` returns has at least two paths;
every path in a group is a regular file of the tree whose full content
hashes to the group's digest key; and a digest carried by exactly one
file never appears in the output. -/
theorem c5_duplicate_groups :
    ∀ (h : String → String) (t : FSTree),
      (∀ g ∈ FindDuplicateFiles h t,
        2 ≤ g.2.length ∧ ∀ p ∈ g.2, ∃ c, (p, c) ∈ filesT t [] ∧ h c = g.1) ∧
      (∀ k, ((filesT t []).filter (fun e => h e.2 == k)).length = 1 →
        ∀ g ∈ FindDuplicateFiles h t, g.1 ≠ k) := by
  intro h t
  have hmem : ∀ g ∈ FindDuplicateFiles h t,
      g.2 = ((filesT t []).filter (fun e => h e.2 == g.1)).map Prod.fst ∧
        1 < g.2.length := by
    intro g hg
    have hg2 := List.mem_filter.mp hg
    have hl : List.lookup g.1 (hashGroups h (filesT t [])) = some g.2 := by
      rcases g with ⟨k, ps⟩
      exact lookup_eq_some_of_mem_nodup (hashGroups_nodupKeys h _) hg2.1
    have : groupOf (hashGroups h (filesT t [])) g.1 = g.2 := by
      simp [groupOf, hl]
    rw [hashGroups_groupOf] at this
    exact ⟨this.symm, by simpa using hg2.2⟩
  constructor
  · intro g hg
    rcases hmem g hg with ⟨hgrp, hlen⟩
    refine ⟨by omega, ?_⟩
    intro p hp
    rw [hgrp] at hp
    rcases List.mem_map.mp hp with ⟨e, he, hep⟩
    rcases List.mem_filter.mp he with ⟨hef, heq⟩
    exact ⟨e.2, by rw [← hep]; exact hef, by simpa using heq⟩
  · intro k hk g hg hgk
    rcases hmem g hg with ⟨hgrp, hlen⟩
    rw [hgrp, hgk, List.length_map, hk] at hlen
    omega

/-- C5 witness: with the identity digest on a tree holding two files with
content `k1` and one with `k2`, the group for `k1` has the two file
paths hashing to it and the singleton digest `k2` is absent. -/
theorem c5_witness :
    (FindDuplicateFiles (fun s => s)
        (FSTree.dir ⟨0, 0, 0⟩ (Ents.econs "a" (FSTree.file ⟨2, 0, 0⟩ "k1")
          (Ents.econs "b" (FSTree.file ⟨2, 0, 0⟩ "k2")
            (Ents.econs "c" (FSTree.file ⟨2, 0, 0⟩ "k1") Ents.enil)))) =
      [("k1", [["a"], ["c"]])]) ∧
    ("k1", [["a"], ["c"]]) ∈ FindDuplicateFiles (fun s => s)
        (FSTree.dir ⟨0, 0, 0⟩ (Ents.econs "a" (FSTree.file ⟨2, 0, 0⟩ "k1")
          (Ents.econs "b" (FSTree.file ⟨2, 0, 0⟩ "k2")
            (Ents.econs "c" (FSTree.file ⟨2, 0, 0⟩ "k1") Ents.enil)))) ∧
    (2 ≤ [["a"], ["c"]].length ∧ ∀ p ∈ [["a"], ["c"]],
      ∃ c, (p, c) ∈ filesT (FSTree.dir ⟨0, 0, 0⟩ (Ents.econs "a" (FSTree.file ⟨2, 0, 0⟩ "k1")
          (Ents.econs "b" (FSTree.file ⟨2, 0, 0⟩ "k2")
            (Ents.econs "c" (FSTree.file ⟨2, 0, 0⟩ "k1") Ents.enil)))) [] ∧
        (fun s => s) c = "k1") :=
  ⟨by decide, by decide,
    (c5_duplicate_groups (fun s => s)
      (FSTree.dir ⟨0, 0, 0⟩ (Ents.econs "a" (FSTree.file ⟨2, 0, 0⟩ "k1")
        (Ents.econs "b" (FSTree.file ⟨2, 0, 0⟩ "k2")
          (Ents.econs "c" (FSTree.file ⟨2, 0, 0⟩ "k1") Ents.enil))))).1
      ("k1", [["a"], ["c"]]) (by decide)⟩

/-! ## Differ lemmas: shape and distinctness of the collected keys -/

mutual

/-- Every key collected under `rel` extends `rel`. -/
def collectT_key_shape : (t : FSTree) → ∀ (rel p : List String) (i : FInfo),
    (p, i) ∈ collectT t rel → ∃ q, p = rel ++ q
  | .file m co => fun rel p i h => by
    simp only [collectT, List.mem_singleton, Prod.mk.injEq] at h
    exact ⟨[], by simp [h.1]⟩
  | .dir m es => fun rel p i h => by
    simp only [collectT, List.mem_cons, Prod.mk.injEq] at h
    rcases h with h | h
    · exact ⟨[], by simp [h.1]⟩
    · rcases collectE_key_shape es rel p i h with ⟨n, q, _, hq⟩
      exact ⟨n :: q, hq⟩

/-- Every key collected from a sibling list under `rel` extends `rel` by
the name of one of the siblings. -/
def collectE_key_shape : (es : Ents) → ∀ (rel p : List String) (i : FInfo),
    (p, i) ∈ collectE es rel →
      ∃ n q, hasName es n = true ∧ p = rel ++ n :: q
  | .enil => fun rel p i h => by simp [collectE] at h
  | .econs n c rest => fun rel p i h => by
    simp only [collectE, List.mem_append] at h
    rcases h with h | h
    · rcases collectT_key_shape c (rel ++ [n]) p i h with ⟨q, hq⟩
      exact ⟨n, q, by simp [hasName], by simpa using hq⟩
    · rcases collectE_key_shape rest rel p i h with ⟨n1, q, hn1, hq⟩
      exact ⟨n1, q, by simp [hasName, hn1], hq⟩

end

mutual

/-- On a well-formed tree the collected keys are pairwise distinct, so
the association list is a faithful image of Go's `map[string]FileInfo`. -/
def collectT_nodup : (t : FSTree) → wfT t = true → ∀ rel : List String,
    ((collectT t rel).map Prod.fst).Nodup
  | .file m co => fun _ rel => by simp [collectT]
  | .dir m es => fun hwf rel => by
    have hes : wfE es = true := by simpa [wfT] using hwf
    simp only [collectT, List.map_cons, List.nodup_cons]
    refine ⟨?_, collectE_nodup es hes rel⟩
    intro hmem
    rcases List.mem_map.mp hmem with ⟨⟨p, i⟩, hp, hpe⟩
    rcases collectE_key_shape es rel p i hp with ⟨n, q, _, hq⟩
    rw [hq] at hpe
    simp only at hpe
    have := congrArg List.length hpe
    simp at this

/-- Distinctness of the keys collected from a well-formed sibling list. -/
def collectE_nodup : (es : Ents) → wfE es = true → ∀ rel : List String,
    ((collectE es rel).map Prod.fst).Nodup
  | .enil => fun _ rel => by simp [collectE]
  | .econs n c rest => fun hwf rel => by
    have h3 : hasName rest n = false ∧ wfT c = true ∧ wfE rest = true := by
      have := hwf
      simp only [wfE, Bool.and_eq_true, Bool.not_eq_true'] at this
      exact ⟨this.1.1, this.1.2, this.2⟩
    simp only [collectE, List.map_append]
    rw [List.nodup_append]
    refine ⟨collectT_nodup c h3.2.1 (rel ++ [n]), collectE_nodup rest h3.2.2 rel, ?_⟩
    intro a ha hb
    rcases List.mem_map.mp ha with ⟨⟨p, i⟩, hp, hpe⟩
    rcases List.mem_map.mp hb with ⟨⟨p1, i1⟩, hp1, hpe1⟩
    rcases collectT_key_shape c (rel ++ [n]) p i hp with ⟨q, hq⟩
    rcases collectE_key_shape rest rel p1 i1 hp1 with ⟨n1, q1, hn1, hq1⟩
    have hpp : p = p1 := by
      simp only at hpe hpe1
      rw [hpe, ← hpe1]
    rw [hq1, hq] at hpp
    have : n :: q = n1 :: q1 := by
      have h0 : rel ++ n :: q = rel ++ n1 :: q1 := by simpa using hpp
      exact List.append_cancel_left h0
    injection this with hnn hqq
    rw [← hnn] at hn1
    rw [h3.1] at hn1
    cases hn1

end

/-- The modified condition of the differ for a path present on both
sides: directory/file kind differs, or both are files and their size or
second-truncated modification times differ. -/
def modCond (li ri : FInfo) : Prop :=
  li.isDir ≠ ri.isDir ∨
    (li.isDir = false ∧ ri.isDir = false ∧
      (li.size ≠ ri.size ∨ unixSec li.mtime ≠ unixSec ri.mtime))

/-- The same condition of the differ: both sides are files with equal
size and equal second-truncated modification time. -/
def sameCond (li ri : FInfo) : Prop :=
  li.isDir = false ∧ ri.isDir = false ∧ li.size = ri.size ∧
    unixSec li.mtime = unixSec ri.mtime

theorem modCond_symm {li ri : FInfo} (h : modCond li ri) : modCond ri li := by
  rcases h with h | ⟨h1, h2, h3⟩
  · exact Or.inl (Ne.symm h)
  · exact Or.inr ⟨h2, h1, h3.imp Ne.symm Ne.symm⟩

theorem sameCond_symm {li ri : FInfo} (h : sameCond li ri) : sameCond ri li :=
  ⟨h.2.1, h.1, h.2.2.1.symm, h.2.2.2.symm⟩

/-- Exhaustive case analysis of the left-map classification. -/
theorem classifyLeft_cases (p : List String) (li : FInfo) (ro : Option FInfo) :
    (ro = none ∧ classifyLeft p li ro = some ⟨p, .removed, some li, none⟩) ∨
    (∃ ri, ro = some ri ∧ li.isDir = true ∧ ri.isDir = true ∧
      classifyLeft p li ro = none) ∨
    (∃ ri, ro = some ri ∧ modCond li ri ∧
      classifyLeft p li ro = some ⟨p, .modified, some li, some ri⟩) ∨
    (∃ ri, ro = some ri ∧ sameCond li ri ∧
      classifyLeft p li ro = some ⟨p, .same, some li, some ri⟩) := by
  rcases ro with _ | ri
  · exact Or.inl ⟨rfl, rfl⟩
  · by_cases hdir : li.isDir = ri.isDir
    · by_cases hli : li.isDir = true
      · have hri : ri.isDir = true := by rw [← hdir]; exact hli
        refine Or.inr (Or.inl ⟨ri, rfl, hli, hri, ?_⟩)
        simp only [classifyLeft]
        rw [if_pos hdir, if_pos hli]
      · have hlif : li.isDir = false := by simpa using hli
        have hri : ri.isDir = false := by rw [← hdir]; exact hlif
        by_cases hdiff : li.size ≠ ri.size ∨ unixSec li.mtime ≠ unixSec ri.mtime
        · refine Or.inr (Or.inr (Or.inl ⟨ri, rfl, Or.inr ⟨hlif, hri, hdiff⟩, ?_⟩))
          simp only [classifyLeft]
          rw [if_pos hdir, if_neg hli, if_pos hdiff]
        · push_neg at hdiff
          refine Or.inr (Or.inr (Or.inr ⟨ri, rfl, ⟨hlif, hri, hdiff.1, hdiff.2⟩, ?_⟩))
          have hcond : ¬(li.size ≠ ri.size ∨ unixSec li.mtime ≠ unixSec ri.mtime) := by
            simp only [not_or, not_not]
            exact hdiff
          simp only [classifyLeft]
          rw [if_pos hdir, if_neg hli, if_neg hcond]
    · refine Or.inr (Or.inr (Or.inl ⟨ri, rfl, Or.inl hdir, ?_⟩))
      simp only [classifyLeft]
      rw [if_neg hdir]

theorem classifyLeft_path {p : List String} {li : FInfo} {ro : Option FInfo}
    {d : Difference} (h : classifyLeft p li ro = some d) : d.path = p := by
  rcases classifyLeft_cases p li ro with ⟨_, he⟩ | ⟨ri, _, _, _, he⟩ |
      ⟨ri, _, _, he⟩ | ⟨ri, _, _, he⟩ <;> rw [he] at h
  · cases h; rfl
  · cases h
  · cases h; rfl
  · cases h; rfl

/-- Unpacking a successful comparison into its pieces. -/
theorem cmp_some_elim {l r : FSTree} {ds : List Difference}
    (hc : CompareDirectories l r = some ds) :
    l.isDirT = true ∧ r.isDirT = true ∧
      ds = ((collectT l []).filterMap fun e =>
          classifyLeft e.1 e.2 (List.lookup e.1 (collectT r []))) ++
        ((collectT r []).filterMap fun e =>
          match List.lookup e.1 (collectT l []) with
          | some _ => none
          | none => some ⟨e.1, .added, none, some e.2⟩) := by
  by_cases h : l.isDirT = true ∧ r.isDirT = true
  · refine ⟨h.1, h.2, ?_⟩
    unfold CompareDirectories at hc
    rw [if_pos h] at hc
    exact (Option.some.injEq _ _ ▸ hc).symm
  · unfold CompareDirectories at hc
    rw [if_neg h] at hc
    cases hc

/-- Membership in the difference sequence, characterized through the two
collected maps (well-formed trees, so lookups determine membership). -/
theorem mem_cmp_iff {l r : FSTree} {ds : List Difference}
    (hl : wfT l = true) (hr : wfT r = true)
    (hc : CompareDirectories l r = some ds) (d : Difference) :
    d ∈ ds ↔
      ((∃ li, List.lookup d.path (collectT l []) = some li ∧
          classifyLeft d.path li (List.lookup d.path (collectT r [])) = some d) ∨
        (List.lookup d.path (collectT l []) = none ∧
          ∃ ri, List.lookup d.path (collectT r []) = some ri ∧
            d = ⟨d.path, .added, none, some ri⟩)) := by
  rcases cmp_some_elim hc with ⟨_, _, hds⟩
  rw [hds]
  constructor
  · intro hmem
    rcases List.mem_append.mp hmem with hmem | hmem
    · rcases List.mem_filterMap.mp hmem with ⟨⟨p, li⟩, hin, hcl⟩
      have hp : d.path = p := classifyLeft_path hcl
      subst hp
      left
      refine ⟨li, lookup_eq_some_of_mem_nodup (collectT_nodup l hl []) hin, hcl⟩
    · rcases List.mem_filterMap.mp hmem with ⟨⟨p, ri⟩, hin, hcl⟩
      rcases hlk : List.lookup p (collectT l []) with _ | li
      · rw [hlk] at hcl
        simp only at hcl
        have hd := (Option.some.injEq _ _ ▸ hcl)
        right
        have hp : d.path = p := by rw [← hd]
        subst hp
        exact ⟨hlk, ri,
          lookup_eq_some_of_mem_nodup (collectT_nodup r hr []) hin, hd.symm⟩
      · rw [hlk] at hcl
        simp at hcl
  · intro hmem
    rcases hmem with ⟨li, hlk, hcl⟩ | ⟨hnone, ri, hlk, hd⟩
    · exact List.mem_append.mpr (Or.inl (List.mem_filterMap.mpr
        ⟨(d.path, li), mem_of_lookup_eq_some hlk, hcl⟩))
    · refine List.mem_append.mpr (Or.inr (List.mem_filterMap.mpr
        ⟨(d.path, ri), mem_of_lookup_eq_some hlk, ?_⟩))
      simp only [hnone]
      rw [← hd]

theorem not_modCond_of_sameCond {li ri : FInfo} (hs : sameCond li ri) :
    ¬ modCond li ri := by
  rintro (h | ⟨_, _, h⟩)
  · exact h (by rw [hs.1, hs.2.1])
  · rcases h with h | h
    · exact h hs.2.2.1
    · exact h hs.2.2.2

theorem not_modCond_of_dirs {li ri : FInfo} (h1 : li.isDir = true)
    (h2 : ri.isDir = true) : ¬ modCond li ri := by
  rintro (h | ⟨hf, _, _⟩)
  · exact h (by rw [h1, h2])
  · rw [h1] at hf
    cases hf

theorem not_sameCond_of_dirs {li ri : FInfo} (h1 : li.isDir = true) :
    ¬ sameCond li ri := by
  rintro ⟨hf, _⟩
  rw [h1] at hf
  cases hf

theorem classifiedAs_added_iff {l r : FSTree} {ds : List Difference}
    (hl : wfT l = true) (hr : wfT r = true)
    (hc : CompareDirectories l r = some ds) (p : List String) :
    classifiedAs ds p .added ↔
      List.lookup p (collectT l []) = none ∧
        ∃ ri, List.lookup p (collectT r []) = some ri := by
  constructor
  · rintro ⟨d, hd, hdp, hdt⟩
    rcases (mem_cmp_iff hl hr hc d).mp hd with ⟨li, hlk, hcl⟩ | ⟨hnone, ri, hlk, hdd⟩
    · rcases classifyLeft_cases d.path li (List.lookup d.path (collectT r [])) with
        ⟨hro, he⟩ | ⟨ri, hro, _, _, he⟩ | ⟨ri, hro, _, he⟩ | ⟨ri, hro, _, he⟩ <;>
        rw [he] at hcl
      · injection hcl with h
        have ht := congrArg Difference.type h
        rw [hdt] at ht
        cases ht
      · cases hcl
      · injection hcl with h
        have ht := congrArg Difference.type h
        rw [hdt] at ht
        cases ht
      · injection hcl with h
        have ht := congrArg Difference.type h
        rw [hdt] at ht
        cases ht
    · rw [hdp] at hnone hlk
      exact ⟨hnone, ri, hlk⟩
  · rintro ⟨hnone, ri, hlk⟩
    refine ⟨⟨p, .added, none, some ri⟩, ?_, rfl, rfl⟩
    exact (mem_cmp_iff hl hr hc _).mpr (Or.inr ⟨hnone, ri, hlk, rfl⟩)

theorem classifiedAs_removed_iff {l r : FSTree} {ds : List Difference}
    (hl : wfT l = true) (hr : wfT r = true)
    (hc : CompareDirectories l r = some ds) (p : List String) :
    classifiedAs ds p .removed ↔
      (∃ li, List.lookup p (collectT l []) = some li) ∧
        List.lookup p (collectT r []) = none := by
  constructor
  · rintro ⟨d, hd, hdp, hdt⟩
    rcases (mem_cmp_iff hl hr hc d).mp hd with ⟨li, hlk, hcl⟩ | ⟨hnone, ri, hlk, hdd⟩
    · rcases classifyLeft_cases d.path li (List.lookup d.path (collectT r [])) with
        ⟨hro, he⟩ | ⟨ri, hro, _, _, he⟩ | ⟨ri, hro, _, he⟩ | ⟨ri, hro, _, he⟩ <;>
        rw [he] at hcl
      · rw [hdp] at hlk hro
        exact ⟨⟨li, hlk⟩, hro⟩
      · cases hcl
      · injection hcl with h
        have ht := congrArg Difference.type h
        rw [hdt] at ht
        cases ht
      · injection hcl with h
        have ht := congrArg Difference.type h
        rw [hdt] at ht
        cases ht
    · have ht := congrArg Difference.type hdd
      rw [hdt] at ht
      cases ht
  · rintro ⟨⟨li, hlk⟩, hnone⟩
    refine ⟨⟨p, .removed, some li, none⟩, ?_, rfl, rfl⟩
    refine (mem_cmp_iff hl hr hc _).mpr (Or.inl ⟨li, hlk, ?_⟩)
    rw [hnone]
    rfl

theorem classifiedAs_modified_iff {l r : FSTree} {ds : List Difference}
    (hl : wfT l = true) (hr : wfT r = true)
    (hc : CompareDirectories l r = some ds) (p : List String) :
    classifiedAs ds p .modified ↔
      ∃ li ri, List.lookup p (collectT l []) = some li ∧
        List.lookup p (collectT r []) = some ri ∧ modCond li ri := by
  constructor
  · rintro ⟨d, hd, hdp, hdt⟩
    rcases (mem_cmp_iff hl hr hc d).mp hd with ⟨li, hlk, hcl⟩ | ⟨hnone, ri, hlk, hdd⟩
    · rcases classifyLeft_cases d.path li (List.lookup d.path (collectT r [])) with
        ⟨hro, he⟩ | ⟨ri, hro, _, _, he⟩ | ⟨ri, hro, hmc, he⟩ | ⟨ri, hro, _, he⟩ <;>
        rw [he] at hcl
      · injection hcl with h
        have ht := congrArg Difference.type h
        rw [hdt] at ht
        cases ht
      · cases hcl
      · rw [hdp] at hlk hro
        exact ⟨li, ri, hlk, hro, hmc⟩
      · injection hcl with h
        have ht := congrArg Difference.type h
        rw [hdt] at ht
        cases ht
    · have ht := congrArg Difference.type hdd
      rw [hdt] at ht
      cases ht
  · rintro ⟨li, ri, hlk, hrk, hmc⟩
    have he : classifyLeft p li (some ri) =
        some ⟨p, .modified, some li, some ri⟩ := by
      rcases classifyLeft_cases p li (some ri) with
        ⟨hro, _⟩ | ⟨ri1, hro, h1, h2, _⟩ | ⟨ri1, hro, _, he⟩ | ⟨ri1, hro, hsc, _⟩
      · cases hro
      · injection hro with h
        subst h
        exact absurd hmc (not_modCond_of_dirs h1 h2)
      · injection hro with h
        subst h
        exact he
      · injection hro with h
        subst h
        exact absurd hmc (not_modCond_of_sameCond hsc)
    refine ⟨⟨p, .modified, some li, some ri⟩, ?_, rfl, rfl⟩
    refine (mem_cmp_iff hl hr hc _).mpr (Or.inl ⟨li, hlk, ?_⟩)
    rw [hrk]
    exact he

theorem classifiedAs_same_iff {l r : FSTree} {ds : List Difference}
    (hl : wfT l = true) (hr : wfT r = true)
    (hc : CompareDirectories l r = some ds) (p : List String) :
    classifiedAs ds p .same ↔
      ∃ li ri, List.lookup p (collectT l []) = some li ∧
        List.lookup p (collectT r []) = some ri ∧ sameCond li ri := by
  constructor
  · rintro ⟨d, hd, hdp, hdt⟩
    rcases (mem_cmp_iff hl hr hc d).mp hd with ⟨li, hlk, hcl⟩ | ⟨hnone, ri, hlk, hdd⟩
    · rcases classifyLeft_cases d.path li (List.lookup d.path (collectT r [])) with
        ⟨hro, he⟩ | ⟨ri, hro, _, _, he⟩ | ⟨ri, hro, _, he⟩ | ⟨ri, hro, hsc, he⟩ <;>
        rw [he] at hcl
      · injection hcl with h
        have ht := congrArg Difference.type h
        rw [hdt] at ht
        cases ht
      · cases hcl
      · injection hcl with h
        have ht := congrArg Difference.type h
        rw [hdt] at ht
        cases ht
      · rw [hdp] at hlk hro
        exact ⟨li, ri, hlk, hro, hsc⟩
    · have ht := congrArg Difference.type hdd
      rw [hdt] at ht
      cases ht
  · rintro ⟨li, ri, hlk, hrk, hsc⟩
    have he : classifyLeft p li (some ri) =
        some ⟨p, .same, some li, some ri⟩ := by
      rcases classifyLeft_cases p li (some ri) with
        ⟨hro, _⟩ | ⟨ri1, hro, h1, h2, _⟩ | ⟨ri1, hro, hmc, _⟩ | ⟨ri1, hro, _, he⟩
      · cases hro
      · injection hro with h
        subst h
        exact absurd hsc (not_sameCond_of_dirs h1)
      · injection hro with h
        subst h
        exact absurd hmc (not_modCond_of_sameCond hsc)
      · injection hro with h
        subst h
        exact he
    refine ⟨⟨p, .same, some li, some ri⟩, ?_, rfl, rfl⟩
    refine (mem_cmp_iff hl hr hc _).mpr (Or.inl ⟨li, hlk, ?_⟩)
    rw [hrk]
    exact he

/-! ## C8: the two comparison directions are classification mirrors -/

/-- C8: for well-formed trees, `CompareDirectories l r` and
`CompareDirectories r l` are classification mirror images: added in one
direction is removed in the other and vice versa, and modified / same
paths carry the identical classification in both directions. -/
theorem c8_compare_mirror :
    ∀ (l r : FSTree) (ds ds1 : List Difference) (p : List String),
      wfT l = true → wfT r = true →
      CompareDirectories l r = some ds →
      CompareDirectories r l = some ds1 →
      ((classifiedAs ds p .added ↔ classifiedAs ds1 p .removed) ∧
        (classifiedAs ds p .removed ↔ classifiedAs ds1 p .added) ∧
        (classifiedAs ds p .modified ↔ classifiedAs ds1 p .modified) ∧
        (classifiedAs ds p .same ↔ classifiedAs ds1 p .same)) := by
  intro l r ds ds1 p hl hr hc hc1
  rw [classifiedAs_added_iff hl hr hc p, classifiedAs_removed_iff hl hr hc p,
    classifiedAs_modified_iff hl hr hc p, classifiedAs_same_iff hl hr hc p,
    classifiedAs_added_iff hr hl hc1 p, classifiedAs_removed_iff hr hl hc1 p,
    classifiedAs_modified_iff hr hl hc1 p, classifiedAs_same_iff hr hl hc1 p]
  refine ⟨⟨fun h => ⟨h.2, h.1⟩, fun h => ⟨h.2, h.1⟩⟩,
    ⟨fun h => ⟨h.2, h.1⟩, fun h => ⟨h.2, h.1⟩⟩, ?_, ?_⟩
  · constructor
    · rintro ⟨li, ri, h1, h2, h3⟩
      exact ⟨ri, li, h2, h1, modCond_symm h3⟩
    · rintro ⟨li, ri, h1, h2, h3⟩
      exact ⟨ri, li, h2, h1, modCond_symm h3⟩
  · constructor
    · rintro ⟨li, ri, h1, h2, h3⟩
      exact ⟨ri, li, h2, h1, sameCond_symm h3⟩
    · rintro ⟨li, ri, h1, h2, h3⟩
      exact ⟨ri, li, h2, h1, sameCond_symm h3⟩

/-- C8 witness: one shared path `x`, a file of size 2 on the left and
size 3 on the right: modified in both directions. -/
theorem c8_witness :
    (wfT (FSTree.dir ⟨0, 0, 0⟩ (Ents.econs "x" (FSTree.file ⟨2, 0, 0⟩ "ab") Ents.enil)) = true ∧
      wfT (FSTree.dir ⟨0, 0, 0⟩ (Ents.econs "x" (FSTree.file ⟨3, 0, 0⟩ "abc") Ents.enil)) = true ∧
      CompareDirectories
          (FSTree.dir ⟨0, 0, 0⟩ (Ents.econs "x" (FSTree.file ⟨2, 0, 0⟩ "ab") Ents.enil))
          (FSTree.dir ⟨0, 0, 0⟩ (Ents.econs "x" (FSTree.file ⟨3, 0, 0⟩ "abc") Ents.enil)) =
        some [⟨["x"], .modified, some ⟨false, 2, 0⟩, some ⟨false, 3, 0⟩⟩] ∧
      CompareDirectories
          (FSTree.dir ⟨0, 0, 0⟩ (Ents.econs "x" (FSTree.file ⟨3, 0, 0⟩ "abc") Ents.enil))
          (FSTree.dir ⟨0, 0, 0⟩ (Ents.econs "x" (FSTree.file ⟨2, 0, 0⟩ "ab") Ents.enil)) =
        some [⟨["x"], .modified, some ⟨false, 3, 0⟩, some ⟨false, 2, 0⟩⟩]) ∧
    ((classifiedAs [⟨["x"], .modified, some ⟨false, 2, 0⟩, some ⟨false, 3, 0⟩⟩] ["x"] .added ↔
        classifiedAs [⟨["x"], .modified, some ⟨false, 3, 0⟩, some ⟨false, 2, 0⟩⟩] ["x"] .removed) ∧
      (classifiedAs [⟨["x"], .modified, some ⟨false, 2, 0⟩, some ⟨false, 3, 0⟩⟩] ["x"] .removed ↔
        classifiedAs [⟨["x"], .modified, some ⟨false, 3, 0⟩, some ⟨false, 2, 0⟩⟩] ["x"] .added) ∧
      (classifiedAs [⟨["x"], .modified, some ⟨false, 2, 0⟩, some ⟨false, 3, 0⟩⟩] ["x"] .modified ↔
        classifiedAs [⟨["x"], .modified, some ⟨false, 3, 0⟩, some ⟨false, 2, 0⟩⟩] ["x"] .modified) ∧
      (classifiedAs [⟨["x"], .modified, some ⟨false, 2, 0⟩, some ⟨false, 3, 0⟩⟩] ["x"] .same ↔
        classifiedAs [⟨["x"], .modified, some ⟨false, 3, 0⟩, some ⟨false, 2, 0⟩⟩] ["x"] .same)) :=
  ⟨⟨by decide, by decide, by decide, by decide⟩,
    c8_compare_mirror
      (FSTree.dir ⟨0, 0, 0⟩ (Ents.econs "x" (FSTree.file ⟨2, 0, 0⟩ "ab") Ents.enil))
      (FSTree.dir ⟨0, 0, 0⟩ (Ents.econs "x" (FSTree.file ⟨3, 0, 0⟩ "abc") Ents.enil))
      [⟨["x"], .modified, some ⟨false, 2, 0⟩, some ⟨false, 3, 0⟩⟩]
      [⟨["x"], .modified, some ⟨false, 3, 0⟩, some ⟨false, 2, 0⟩⟩]
      ["x"] (by decide) (by decide) (by decide) (by decide)⟩

/-! ## C4: both-sides-file classification is size and whole-second mtime -/

/-- C4: for a path that is a regular file on both sides of a comparison
of well-formed trees, the differ reports modified exactly when the byte
sizes differ or the modification times truncated to whole seconds
differ, and same exactly otherwise; the stored file contents do not
enter the condition. -/
theorem c4_file_modified_iff :
    ∀ (l r : FSTree) (ds : List Difference) (p : List String) (li ri : FInfo),
      wfT l = true → wfT r = true →
      CompareDirectories l r = some ds →
      List.lookup p (collectT l []) = some li →
      List.lookup p (collectT r []) = some ri →
      li.isDir = false → ri.isDir = false →
      ((classifiedAs ds p .modified ↔
          (li.size ≠ ri.size ∨ unixSec li.mtime ≠ unixSec ri.mtime)) ∧
        (classifiedAs ds p .same ↔
          (li.size = ri.size ∧ unixSec li.mtime = unixSec ri.mtime))) := by
  intro l r ds p li ri hl hr hc hli hri hfl hfr
  rw [classifiedAs_modified_iff hl hr hc p, classifiedAs_same_iff hl hr hc p]
  constructor
  · constructor
    · rintro ⟨li1, ri1, h1, h2, hmc⟩
      rw [hli] at h1
      rw [hri] at h2
      injection h1 with h1
      injection h2 with h2
      subst h1
      subst h2
      rcases hmc with h | ⟨_, _, h⟩
      · exact absurd (hfl.trans hfr.symm) h
      · exact h
    · intro hdiff
      exact ⟨li, ri, hli, hri, Or.inr ⟨hfl, hfr, hdiff⟩⟩
  · constructor
    · rintro ⟨li1, ri1, h1, h2, hsc⟩
      rw [hli] at h1
      rw [hri] at h2
      injection h1 with h1
      injection h2 with h2
      subst h1
      subst h2
      exact ⟨hsc.2.2.1, hsc.2.2.2⟩
    · intro heq
      exact ⟨li, ri, hli, hri, hfl, hfr, heq.1, heq.2⟩

/-- C4 witness: two files at path `x` of equal size and equal truncated
second (nanosecond times 1500000000 and 1900000000 both truncate to
second 1) but different contents: classified same, not modified. -/
theorem c4_witness :
    (wfT (FSTree.dir ⟨0, 0, 0⟩
        (Ents.econs "x" (FSTree.file ⟨2, 1500000000, 420⟩ "ab") Ents.enil)) = true ∧
      wfT (FSTree.dir ⟨0, 0, 0⟩
        (Ents.econs "x" (FSTree.file ⟨2, 1900000000, 420⟩ "cd") Ents.enil)) = true ∧
      CompareDirectories
          (FSTree.dir ⟨0, 0, 0⟩ (Ents.econs "x" (FSTree.file ⟨2, 1500000000, 420⟩ "ab") Ents.enil))
          (FSTree.dir ⟨0, 0, 0⟩ (Ents.econs "x" (FSTree.file ⟨2, 1900000000, 420⟩ "cd") Ents.enil)) =
        some [⟨["x"], .same, some ⟨false, 2, 1500000000⟩, some ⟨false, 2, 1900000000⟩⟩] ∧
      List.lookup ["x"] (collectT (FSTree.dir ⟨0, 0, 0⟩
          (Ents.econs "x" (FSTree.file ⟨2, 1500000000, 420⟩ "ab") Ents.enil)) []) =
        some ⟨false, 2, 1500000000⟩ ∧
      List.lookup ["x"] (collectT (FSTree.dir ⟨0, 0, 0⟩
          (Ents.econs "x" (FSTree.file ⟨2, 1900000000, 420⟩ "cd") Ents.enil)) []) =
        some ⟨false, 2, 1900000000⟩) ∧
    ((classifiedAs [⟨["x"], .same, some ⟨false, 2, 1500000000⟩, some ⟨false, 2, 1900000000⟩⟩]
        ["x"] .modified ↔
        ((⟨false, 2, 1500000000⟩ : FInfo).size ≠ (⟨false, 2, 1900000000⟩ : FInfo).size ∨
          unixSec (⟨false, 2, 1500000000⟩ : FInfo).mtime ≠
            unixSec (⟨false, 2, 1900000000⟩ : FInfo).mtime)) ∧
      (classifiedAs [⟨["x"], .same, some ⟨false, 2, 1500000000⟩, some ⟨false, 2, 1900000000⟩⟩]
        ["x"] .same ↔
        ((⟨false, 2, 1500000000⟩ : FInfo).size = (⟨false, 2, 1900000000⟩ : FInfo).size ∧
          unixSec (⟨false, 2, 1500000000⟩ : FInfo).mtime =
            unixSec (⟨false, 2, 1900000000⟩ : FInfo).mtime))) :=
  ⟨⟨by decide, by decide, by decide, by decide, by decide⟩,
    c4_file_modified_iff
      (FSTree.dir ⟨0, 0, 0⟩ (Ents.econs "x" (FSTree.file ⟨2, 1500000000, 420⟩ "ab") Ents.enil))
      (FSTree.dir ⟨0, 0, 0⟩ (Ents.econs "x" (FSTree.file ⟨2, 1900000000, 420⟩ "cd") Ents.enil))
      [⟨["x"], .same, some ⟨false, 2, 1500000000⟩, some ⟨false, 2, 1900000000⟩⟩]
      ["x"] ⟨false, 2, 1500000000⟩ ⟨false, 2, 1900000000⟩
      (by decide) (by decide) (by decide) (by decide) (by decide) (by decide) (by decide)⟩

/-! ## C1: which paths appear in the comparison output -/

/-- C1 counterexample: two identical trees whose only entry is the
subdirectory `d`: the relative path `d` is present in both trees (a
directory on both sides) yet the returned sequence is empty, so it
carries no classification for `d` at all. -/
theorem c1_counterexample :
    CompareDirectories
        (FSTree.dir ⟨0, 0, 0⟩ (Ents.econs "d" (FSTree.dir ⟨0, 0, 0⟩ Ents.enil) Ents.enil))
        (FSTree.dir ⟨0, 0, 0⟩ (Ents.econs "d" (FSTree.dir ⟨0, 0, 0⟩ Ents.enil) Ents.enil)) =
      some [] ∧
    (["d"], (⟨true, 0, 0⟩ : FInfo)) ∈ collectT
        (FSTree.dir ⟨0, 0, 0⟩ (Ents.econs "d" (FSTree.dir ⟨0, 0, 0⟩ Ents.enil) Ents.enil)) [] ∧
    ¬ classifiedAs [] ["d"] .added ∧ ¬ classifiedAs [] ["d"] .removed ∧
    ¬ classifiedAs [] ["d"] .modified ∧ ¬ classifiedAs [] ["d"] .same := by
  refine ⟨by decide, by decide, ?_, ?_, ?_, ?_⟩ <;>
    rintro ⟨d, hd, _⟩ <;> simp at hd

/-- C1 amended: in a comparison of well-formed existing directory trees,
every relative path present in either tree appears in the returned
sequence with a classification among added, removed, modified, or same,
EXCEPT paths that are directories on both sides (including the shared
root), for which no difference is produced. -/
theorem c1_amended_paths_classified :
    ∀ (l r : FSTree) (ds : List Difference) (p : List String),
      wfT l = true → wfT r = true →
      CompareDirectories l r = some ds →
      ((∃ i, List.lookup p (collectT l []) = some i) ∨
        (∃ i, List.lookup p (collectT r []) = some i)) →
      ¬ (∃ li ri, List.lookup p (collectT l []) = some li ∧
          List.lookup p (collectT r []) = some ri ∧
          li.isDir = true ∧ ri.isDir = true) →
      ∃ d ∈ ds, d.path = p ∧
        (d.type = .added ∨ d.type = .removed ∨ d.type = .modified ∨
          d.type = .same) := by
  intro l r ds p hl hr hc hpres hexc
  rcases hL : List.lookup p (collectT l []) with _ | li <;>
    rcases hR : List.lookup p (collectT r []) with _ | ri
  · rcases hpres with ⟨i, hi⟩ | ⟨i, hi⟩
    · rw [hL] at hi; cases hi
    · rw [hR] at hi; cases hi
  · rcases (classifiedAs_added_iff hl hr hc p).mpr ⟨hL, ri, hR⟩ with ⟨d, hd, hdp, hdt⟩
    exact ⟨d, hd, hdp, Or.inl hdt⟩
  · rcases (classifiedAs_removed_iff hl hr hc p).mpr ⟨⟨li, hL⟩, hR⟩ with ⟨d, hd, hdp, hdt⟩
    exact ⟨d, hd, hdp, Or.inr (Or.inl hdt)⟩
  · by_cases hdir : li.isDir = ri.isDir
    · by_cases hli : li.isDir = true
      · exact absurd ⟨li, ri, hL, hR, hli, hdir ▸ hli⟩ hexc
      · have hlif : li.isDir = false := by simpa using hli
        have hrif : ri.isDir = false := by rw [← hdir]; exact hlif
        by_cases hdiff : li.size ≠ ri.size ∨ unixSec li.mtime ≠ unixSec ri.mtime
        · rcases (classifiedAs_modified_iff hl hr hc p).mpr
            ⟨li, ri, hL, hR, Or.inr ⟨hlif, hrif, hdiff⟩⟩ with ⟨d, hd, hdp, hdt⟩
          exact ⟨d, hd, hdp, Or.inr (Or.inr (Or.inl hdt))⟩
        · push_neg at hdiff
          rcases (classifiedAs_same_iff hl hr hc p).mpr
            ⟨li, ri, hL, hR, hlif, hrif, hdiff.1, hdiff.2⟩ with ⟨d, hd, hdp, hdt⟩
          exact ⟨d, hd, hdp, Or.inr (Or.inr (Or.inr hdt))⟩
    · rcases (classifiedAs_modified_iff hl hr hc p).mpr
        ⟨li, ri, hL, hR, Or.inl hdir⟩ with ⟨d, hd, hdp, hdt⟩
      exact ⟨d, hd, hdp, Or.inr (Or.inr (Or.inl hdt))⟩

/-- C1 witness: left tree has the file `f`, right tree is empty: `f` is
present on the left, is not a directory on both sides, and appears in
the output with a classification. -/
theorem c1_witness :
    (wfT (FSTree.dir ⟨0, 0, 0⟩ (Ents.econs "f" (FSTree.file ⟨1, 0, 0⟩ "a") Ents.enil)) = true ∧
      wfT (FSTree.dir ⟨0, 0, 0⟩ Ents.enil) = true ∧
      CompareDirectories
          (FSTree.dir ⟨0, 0, 0⟩ (Ents.econs "f" (FSTree.file ⟨1, 0, 0⟩ "a") Ents.enil))
          (FSTree.dir ⟨0, 0, 0⟩ Ents.enil) =
        some [⟨["f"], .removed, some ⟨false, 1, 0⟩, none⟩] ∧
      ((∃ i, List.lookup ["f"] (collectT (FSTree.dir ⟨0, 0, 0⟩
          (Ents.econs "f" (FSTree.file ⟨1, 0, 0⟩ "a") Ents.enil)) []) = some i) ∨
        (∃ i, List.lookup ["f"] (collectT (FSTree.dir ⟨0, 0, 0⟩ Ents.enil) []) = some i)) ∧
      ¬ (∃ li ri, List.lookup ["f"] (collectT (FSTree.dir ⟨0, 0, 0⟩
            (Ents.econs "f" (FSTree.file ⟨1, 0, 0⟩ "a") Ents.enil)) []) = some li ∧
          List.lookup ["f"] (collectT (FSTree.dir ⟨0, 0, 0⟩ Ents.enil) []) = some ri ∧
          li.isDir = true ∧ ri.isDir = true)) ∧
    (∃ d ∈ [(⟨["f"], .removed, some ⟨false, 1, 0⟩, none⟩ : Difference)], d.path = ["f"] ∧
      (d.type = .added ∨ d.type = .removed ∨ d.type = .modified ∨ d.type = .same)) :=
  ⟨⟨by decide, by decide, by decide, Or.inl ⟨⟨false, 1, 0⟩, by decide⟩,
      by
        rintro ⟨li, ri, hli, hri, hh1, hh2⟩
        have hnn : List.lookup ["f"]
            (collectT (FSTree.dir ⟨0, 0, 0⟩ Ents.enil) []) = (none : Option FInfo) := by
          decide
        rw [hnn] at hri
        cases hri⟩,
    c1_amended_paths_classified
      (FSTree.dir ⟨0, 0, 0⟩ (Ents.econs "f" (FSTree.file ⟨1, 0, 0⟩ "a") Ents.enil))
      (FSTree.dir ⟨0, 0, 0⟩ Ents.enil)
      [⟨["f"], .removed, some ⟨false, 1, 0⟩, none⟩] ["f"]
      (by decide) (by decide) (by decide)
      (Or.inl ⟨⟨false, 1, 0⟩, by decide⟩)
      (by
        rintro ⟨li, ri, hli, hri, hh1, hh2⟩
        have hnn : List.lookup ["f"]
            (collectT (FSTree.dir ⟨0, 0, 0⟩ Ents.enil) []) = (none : Option FInfo) := by
          decide
        rw [hnn] at hri
        cases hri)⟩

/-! ## Search-walk preservation machinery -/

theorem searchWrap_ok {w : SearchSt × Option WErr} {e : FsxError}
    {rs : List SearchResult} (h : searchWrap w e = .ok rs) : rs = w.1.1 := by
  rcases w with ⟨s, r⟩
  rcases r with _ | wr
  · simp only [searchWrap] at h
    injection h with h
    exact h.symm
  · rcases wr with _ | _ | c
    · simp only [searchWrap] at h
      injection h with h
      exact h.symm
    · simp [searchWrap] at h
    · simp [searchWrap] at h

mutual

/-- If one visitor step only ever appends results satisfying `P`, then a
whole walk from any node only ever appends results satisfying `P`. -/
def walkKeeps_T (fn : SearchSt → List String → EInfo → Nat → SearchSt × Sig)
    (P : SearchResult → Prop)
    (hstep : ∀ s path info depth,
      ∀ x ∈ ((fn s path info depth).1).1, x ∈ s.1 ∨ P x) :
    (t : FSTree) → ∀ (name : String) (path : List String) (depth : Nat)
      (s : SearchSt),
      ∀ x ∈ ((walkWithDepth fn name path depth s t).1).1, x ∈ s.1 ∨ P x
  | .file m co => fun name path depth s x hx => by
    rcases hv : fn s path (einfoOf name (.file m co)) depth with ⟨s1, sig⟩
    have hs1 : ∀ y ∈ s1.1, y ∈ s.1 ∨ P y := fun y hy =>
      hstep s path (einfoOf name (.file m co)) depth y (by rw [hv]; exact hy)
    cases sig <;> simp only [walkWithDepth, hv] at hx <;> exact hs1 x hx
  | .dir m es => fun name path depth s x hx => by
    rcases hv : fn s path (einfoOf name (.dir m es)) depth with ⟨s1, sig⟩
    have hs1 : ∀ y ∈ s1.1, y ∈ s.1 ∨ P y := fun y hy =>
      hstep s path (einfoOf name (.dir m es)) depth y (by rw [hv]; exact hy)
    cases sig with
    | cont =>
      simp only [walkWithDepth, hv] at hx
      rcases walkKeeps_E fn P hstep es path depth s1 x hx with h | h
      · exact hs1 x h
      · exact Or.inr h
    | skipDir =>
      simp only [walkWithDepth, hv] at hx
      exact hs1 x hx
    | eof =>
      simp only [walkWithDepth, hv] at hx
      exact hs1 x hx
    | err c =>
      simp only [walkWithDepth, hv] at hx
      exact hs1 x hx

/-- The sibling-loop form of `walkKeeps_T`. -/
def walkKeeps_E (fn : SearchSt → List String → EInfo → Nat → SearchSt × Sig)
    (P : SearchResult → Prop)
    (hstep : ∀ s path info depth,
      ∀ x ∈ ((fn s path info depth).1).1, x ∈ s.1 ∨ P x) :
    (es : Ents) → ∀ (path : List String) (depth : Nat) (s : SearchSt),
      ∀ x ∈ ((walkEntries fn path depth s es).1).1, x ∈ s.1 ∨ P x
  | .enil => fun path depth s x hx => Or.inl (by simpa [walkEntries] using hx)
  | .econs n c rest => fun path depth s x hx => by
    rcases hw : walkWithDepth fn n (path ++ [n]) (depth + 1) s c with ⟨s1, r⟩
    have hs1 : ∀ y ∈ s1.1, y ∈ s.1 ∨ P y := fun y hy =>
      walkKeeps_T fn P hstep c n (path ++ [n]) (depth + 1) s y (by rw [hw]; exact hy)
    have hrest : ∀ y ∈ ((walkEntries fn path depth s1 rest).1).1, y ∈ s.1 ∨ P y := by
      intro y hy
      rcases walkKeeps_E fn P hstep rest path depth s1 y hy with h | h
      · exact hs1 y h
      · exact Or.inr h
    rcases r with _ | wr
    · simp only [walkEntries, hw] at hx
      exact hrest x hx
    · rcases wr with _ | _ | cc
      · simp only [walkEntries, hw] at hx
        exact hs1 x hx
      · simp only [walkEntries, hw] at hx
        exact hrest x hx
      · simp only [walkEntries, hw] at hx
        exact hrest x hx

end

theorem findFilesVisitor_isDir_step (pattern : String) (o : SearchOpts) :
    ∀ (s : SearchSt) (path : List String) (info : EInfo) (depth : Nat),
      ∀ x ∈ ((findFilesVisitor pattern o s path info depth).1).1,
        x ∈ s.1 ∨ x.info.isDir = false := by
  intro s path info depth x hx
  unfold findFilesVisitor at hx
  rcases hg : pipelineGate o s info depth with _ | sig <;> rw [hg] at hx
  · simp only at hx
    split at hx
    · exact Or.inl hx
    · split at hx
      · exact Or.inl hx
      · split at hx
        · rename_i hcond
          rcases List.mem_append.mp hx with h | h
          · exact Or.inl h
          · right
            simp only [List.mem_singleton] at h
            subst h
            exact hcond.2
        · exact Or.inl hx
  · exact Or.inl hx

theorem findFilesByRegexVisitor_isDir_step (re : String → Bool) (o : SearchOpts) :
    ∀ (s : SearchSt) (path : List String) (info : EInfo) (depth : Nat),
      ∀ x ∈ ((findFilesByRegexVisitor re o s path info depth).1).1,
        x ∈ s.1 ∨ x.info.isDir = false := by
  intro s path info depth x hx
  unfold findFilesByRegexVisitor at hx
  rcases hg : pipelineGate o s info depth with _ | sig <;> rw [hg] at hx
  · simp only at hx
    split at hx
    · rename_i hcond
      rcases List.mem_append.mp hx with h | h
      · exact Or.inl h
      · right
        simp only [List.mem_singleton] at h
        subst h
        exact hcond.2
    · exact Or.inl hx
  · exact Or.inl hx

theorem findFilesByContentVisitor_isDir_step (t : FSTree) (pat : String)
    (o : SearchOpts) :
    ∀ (s : SearchSt) (path : List String) (info : EInfo) (depth : Nat),
      ∀ x ∈ ((findFilesByContentVisitor t pat o s path info depth).1).1,
        x ∈ s.1 ∨ x.info.isDir = false := by
  intro s path info depth x hx
  unfold findFilesByContentVisitor at hx
  rcases hg : pipelineGate o s info depth with _ | sig <;> rw [hg] at hx
  · simp only at hx
    split at hx
    · exact Or.inl hx
    · rename_i hcond
      have hdir : info.isDir = false := by
        rcases Bool.eq_false_or_eq_true info.isDir with h | h
        · exact absurd (Or.inl h) hcond
        · exact h
      split at hx
      · exact Or.inl hx
      · split at hx
        · exact Or.inl hx
        · split at hx <;> rename_i hres
          · rcases List.mem_append.mp hx with h | h
            · exact Or.inl h
            · right
              simp only [List.mem_singleton] at h
              subst h
              exact hdir
          · rcases List.mem_append.mp hx with h | h
            · exact Or.inl h
            · right
              simp only [List.mem_singleton] at h
              subst h
              exact hdir
  · exact Or.inl hx

theorem findFilesBySizeVisitor_isDir_step (minSize maxSize : Int) (o : SearchOpts) :
    ∀ (s : SearchSt) (path : List String) (info : EInfo) (depth : Nat),
      ∀ x ∈ ((findFilesBySizeVisitor minSize maxSize o s path info depth).1).1,
        x ∈ s.1 ∨ x.info.isDir = false := by
  intro s path info depth x hx
  unfold findFilesBySizeVisitor at hx
  rcases hg : pipelineGate o s info depth with _ | sig <;> rw [hg] at hx
  · simp only at hx
    split at hx
    · rename_i hdir
      split at hx
      · rcases List.mem_append.mp hx with h | h
        · exact Or.inl h
        · right
          simp only [List.mem_singleton] at h
          subst h
          exact hdir
      · exact Or.inl hx
    · exact Or.inl hx
  · exact Or.inl hx

theorem findFilesByTimeVisitor_isDir_step (after before : Option Int) (o : SearchOpts) :
    ∀ (s : SearchSt) (path : List String) (info : EInfo) (depth : Nat),
      ∀ x ∈ ((findFilesByTimeVisitor after before o s path info depth).1).1,
        x ∈ s.1 ∨ x.info.isDir = false := by
  intro s path info depth x hx
  unfold findFilesByTimeVisitor at hx
  rcases hg : pipelineGate o s info depth with _ | sig <;> rw [hg] at hx
  · simp only at hx
    split at hx
    · rename_i hdir
      split at hx
      · rcases List.mem_append.mp hx with h | h
        · exact Or.inl h
        · right
          simp only [List.mem_singleton] at h
          subst h
          exact hdir
      · exact Or.inl hx
    · exact Or.inl hx
  · exact Or.inl hx

theorem findFilesByPermissionsVisitor_isDir_step (mode : Nat) (exact1 : Bool)
    (o : SearchOpts) :
    ∀ (s : SearchSt) (path : List String) (info : EInfo) (depth : Nat),
      ∀ x ∈ ((findFilesByPermissionsVisitor mode exact1 o s path info depth).1).1,
        x ∈ s.1 ∨ x.info.isDir = false := by
  intro s path info depth x hx
  unfold findFilesByPermissionsVisitor at hx
  rcases hg : pipelineGate o s info depth with _ | sig <;> rw [hg] at hx
  · simp only at hx
    split at hx
    · rename_i hdir
      split at hx <;> split at hx
      all_goals try exact Or.inl hx
      all_goals
        rcases List.mem_append.mp hx with h | h
        · exact Or.inl h
        · right
          simp only [List.mem_singleton] at h
          subst h
          exact hdir
    · exact Or.inl hx
  · exact Or.inl hx

/-! ## C9: search results are never directories -/

/-- C9: whatever entry point, options, and predicate arguments are used,
every `SearchResult` any of the six search functions returns refers to a
non-directory entry. -/
theorem c9_results_never_directories :
    (∀ (t : FSTree) (rootName pattern : String) (o : SearchOpts)
        (rs : List SearchResult) (r : SearchResult),
      FindFiles t rootName pattern o = .ok rs → r ∈ rs → r.info.isDir = false) ∧
    (∀ (t : FSTree) (rootName : String) (re : String → Bool) (o : SearchOpts)
        (rs : List SearchResult) (r : SearchResult),
      FindFilesByRegex t rootName re o = .ok rs → r ∈ rs → r.info.isDir = false) ∧
    (∀ (t : FSTree) (rootName co : String) (o : SearchOpts)
        (rs : List SearchResult) (r : SearchResult),
      FindFilesByContent t rootName co o = .ok rs → r ∈ rs → r.info.isDir = false) ∧
    (∀ (t : FSTree) (rootName : String) (minSize maxSize : Int) (o : SearchOpts)
        (rs : List SearchResult) (r : SearchResult),
      FindFilesBySize t rootName minSize maxSize o = .ok rs → r ∈ rs →
        r.info.isDir = false) ∧
    (∀ (t : FSTree) (rootName : String) (after before : Option Int) (o : SearchOpts)
        (rs : List SearchResult) (r : SearchResult),
      FindFilesByTime t rootName after before o = .ok rs → r ∈ rs →
        r.info.isDir = false) ∧
    (∀ (t : FSTree) (rootName : String) (mode : Nat) (exact1 : Bool) (o : SearchOpts)
        (rs : List SearchResult) (r : SearchResult),
      FindFilesByPermissions t rootName mode exact1 o = .ok rs → r ∈ rs →
        r.info.isDir = false) := by
  refine ⟨?_, ?_, ?_, ?_, ?_, ?_⟩
  · intro t rootName pattern o rs r h hr
    rw [searchWrap_ok h] at hr
    rcases walkKeeps_T _ _ (findFilesVisitor_isDir_step pattern o) t rootName
      [rootName] 0 ([], 0) r hr with h0 | h0
    · simp at h0
    · exact h0
  · intro t rootName re o rs r h hr
    rw [searchWrap_ok h] at hr
    rcases walkKeeps_T _ _ (findFilesByRegexVisitor_isDir_step re o) t rootName
      [rootName] 0 ([], 0) r hr with h0 | h0
    · simp at h0
    · exact h0
  · intro t rootName co o rs r h hr
    rw [searchWrap_ok h] at hr
    rcases walkKeeps_T _ _
      (findFilesByContentVisitor_isDir_step t
        (if o.caseSensitive then co else lowerStr co) o) t rootName
      [rootName] 0 ([], 0) r hr with h0 | h0
    · simp at h0
    · exact h0
  · intro t rootName minSize maxSize o rs r h hr
    rw [searchWrap_ok h] at hr
    rcases walkKeeps_T _ _ (findFilesBySizeVisitor_isDir_step minSize maxSize o)
      t rootName [rootName] 0 ([], 0) r hr with h0 | h0
    · simp at h0
    · exact h0
  · intro t rootName after before o rs r h hr
    rw [searchWrap_ok h] at hr
    rcases walkKeeps_T _ _ (findFilesByTimeVisitor_isDir_step after before o)
      t rootName [rootName] 0 ([], 0) r hr with h0 | h0
    · simp at h0
    · exact h0
  · intro t rootName mode exact1 o rs r h hr
    rw [searchWrap_ok h] at hr
    rcases walkKeeps_T _ _ (findFilesByPermissionsVisitor_isDir_step mode exact1 o)
      t rootName [rootName] 0 ([], 0) r hr with h0 | h0
    · simp at h0
    · exact h0

/-- C9 witness: a size search matching everything on a tree with one file
and one subdirectory returns only the file, and the theorem applies to
the returned result. -/
theorem c9_witness :
    (FindFilesBySize (FSTree.dir ⟨0, 0, 0⟩ (Ents.econs "sub" (FSTree.dir ⟨0, 0, 0⟩ Ents.enil)
        (Ents.econs "a" (FSTree.file ⟨5, 0, 0⟩ "hello") Ents.enil)))
        "root" (-1) (-1) defaultSearchOptions =
      .ok [⟨["root", "a"], ⟨"a", false, 5, 0, 0⟩, "size", 0, ""⟩] ∧
      (⟨["root", "a"], ⟨"a", false, 5, 0, 0⟩, "size", 0, ""⟩ : SearchResult) ∈
        [(⟨["root", "a"], ⟨"a", false, 5, 0, 0⟩, "size", 0, ""⟩ : SearchResult)]) ∧
    (⟨["root", "a"], ⟨"a", false, 5, 0, 0⟩, "size", 0, ""⟩ : SearchResult).info.isDir = false :=
  ⟨⟨by decide, by decide⟩,
    c9_results_never_directories.2.2.2.1
      (FSTree.dir ⟨0, 0, 0⟩ (Ents.econs "sub" (FSTree.dir ⟨0, 0, 0⟩ Ents.enil)
        (Ents.econs "a" (FSTree.file ⟨5, 0, 0⟩ "hello") Ents.enil)))
      "root" (-1) (-1) defaultSearchOptions
      [⟨["root", "a"], ⟨"a", false, 5, 0, 0⟩, "size", 0, ""⟩]
      ⟨["root", "a"], ⟨"a", false, 5, 0, 0⟩, "size", 0, ""⟩
      (by decide) (by decide)⟩

/-! ## C2: which entry points consult the include/exclude pattern lists -/

theorem findFilesVisitor_patterns_step (pattern : String) (o : SearchOpts) :
    ∀ (s : SearchSt) (path : List String) (info : EInfo) (depth : Nat),
      ∀ x ∈ ((findFilesVisitor pattern o s path info depth).1).1,
        x ∈ s.1 ∨
          ((∀ ep ∈ o.excludePatterns,
              matchPattern x.info.name ep o.caseSensitive = false) ∧
            (o.includePatterns ≠ [] →
              ∃ ip ∈ o.includePatterns,
                matchPattern x.info.name ip o.caseSensitive = true)) := by
  intro s path info depth x hx
  unfold findFilesVisitor at hx
  rcases hg : pipelineGate o s info depth with _ | sig <;> rw [hg] at hx
  · simp only at hx
    split at hx
    · exact Or.inl hx
    · rename_i hex
      split at hx
      · exact Or.inl hx
      · rename_i hinc
        split at hx
        · rcases List.mem_append.mp hx with h | h
          · exact Or.inl h
          · right
            simp only [List.mem_singleton] at h
            subst h
            constructor
            · intro ep hep
              by_contra hne
              have : (o.excludePatterns.any
                  fun ep => matchPattern info.name ep o.caseSensitive) = true :=
                List.any_eq_true.mpr ⟨ep, hep, by simpa using hne⟩
              exact hex this
            · intro hne
              push_neg at hinc
              rcases List.any_eq_true.mp (by simpa using hinc hne) with ⟨ip, hip, hm⟩
              exact ⟨ip, hip, hm⟩
        · exact Or.inl hx
  · exact Or.inl hx

/-- C2 counterexample: `FindFilesByRegex` with the exclude pattern
`*.txt` configured still returns the file `a.txt`, whose name matches
the exclude pattern, so the exclude list is not applied there (only
`FindFiles` applies it). -/
theorem c2_counterexample :
    matchPattern "a.txt" "*.txt"
      { defaultSearchOptions with excludePatterns := ["*.txt"] }.caseSensitive = true ∧
    FindFilesByRegex
        (FSTree.dir ⟨0, 0, 0⟩ (Ents.econs "a.txt" (FSTree.file ⟨1, 0, 0⟩ "x") Ents.enil))
        "root" (fun _ => true)
        { defaultSearchOptions with excludePatterns := ["*.txt"] } =
      .ok [⟨["root", "a.txt"], ⟨"a.txt", false, 1, 0, 0⟩, "regex", 0, ""⟩] :=
  ⟨by decide, by decide⟩

/-- C2 amended: only `FindFiles` applies the include/exclude glob pattern
lists: a result it returns never matches a configured exclude pattern
and, when include patterns are configured, matches at least one of them;
the other five entry points share the rest of the pipeline but ignore
the configured pattern lists entirely — their output is unchanged under
any replacement of the two lists. -/
theorem c2_patterns_only_in_findFiles :
    (∀ (t : FSTree) (rootName pattern : String) (o : SearchOpts)
        (rs : List SearchResult) (r : SearchResult),
      FindFiles t rootName pattern o = .ok rs → r ∈ rs →
        (∀ ep ∈ o.excludePatterns,
          matchPattern r.info.name ep o.caseSensitive = false) ∧
        (o.includePatterns ≠ [] →
          ∃ ip ∈ o.includePatterns,
            matchPattern r.info.name ip o.caseSensitive = true)) ∧
    (∀ (t : FSTree) (nm : String) (re : String → Bool) (m1 m2 : Int)
        (m3 m4 m5 m6 : Bool) (m7 : Int) (ps qs ps1 qs1 : List String),
      FindFilesByRegex t nm re ⟨m1, m2, m3, m4, m5, m6, m7, ps, qs⟩ =
        FindFilesByRegex t nm re ⟨m1, m2, m3, m4, m5, m6, m7, ps1, qs1⟩) ∧
    (∀ (t : FSTree) (nm co : String) (m1 m2 : Int) (m3 m4 m5 m6 : Bool)
        (m7 : Int) (ps qs ps1 qs1 : List String),
      FindFilesByContent t nm co ⟨m1, m2, m3, m4, m5, m6, m7, ps, qs⟩ =
        FindFilesByContent t nm co ⟨m1, m2, m3, m4, m5, m6, m7, ps1, qs1⟩) ∧
    (∀ (t : FSTree) (nm : String) (a b : Int) (m1 m2 : Int) (m3 m4 m5 m6 : Bool)
        (m7 : Int) (ps qs ps1 qs1 : List String),
      FindFilesBySize t nm a b ⟨m1, m2, m3, m4, m5, m6, m7, ps, qs⟩ =
        FindFilesBySize t nm a b ⟨m1, m2, m3, m4, m5, m6, m7, ps1, qs1⟩) ∧
    (∀ (t : FSTree) (nm : String) (a b : Option Int) (m1 m2 : Int)
        (m3 m4 m5 m6 : Bool) (m7 : Int) (ps qs ps1 qs1 : List String),
      FindFilesByTime t nm a b ⟨m1, m2, m3, m4, m5, m6, m7, ps, qs⟩ =
        FindFilesByTime t nm a b ⟨m1, m2, m3, m4, m5, m6, m7, ps1, qs1⟩) ∧
    (∀ (t : FSTree) (nm : String) (mo : Nat) (ex : Bool) (m1 m2 : Int)
        (m3 m4 m5 m6 : Bool) (m7 : Int) (ps qs ps1 qs1 : List String),
      FindFilesByPermissions t nm mo ex ⟨m1, m2, m3, m4, m5, m6, m7, ps, qs⟩ =
        FindFilesByPermissions t nm mo ex ⟨m1, m2, m3, m4, m5, m6, m7, ps1, qs1⟩) := by
  refine ⟨?_, ?_, ?_, ?_, ?_, ?_⟩
  · intro t rootName pattern o rs r h hr
    rw [searchWrap_ok h] at hr
    rcases walkKeeps_T _ _ (findFilesVisitor_patterns_step pattern o) t rootName
      [rootName] 0 ([], 0) r hr with h0 | h0
    · simp at h0
    · exact h0
  · intro t nm re m1 m2 m3 m4 m5 m6 m7 ps qs ps1 qs1
    rfl
  · intro t nm co m1 m2 m3 m4 m5 m6 m7 ps qs ps1 qs1
    rfl
  · intro t nm a b m1 m2 m3 m4 m5 m6 m7 ps qs ps1 qs1
    rfl
  · intro t nm a b m1 m2 m3 m4 m5 m6 m7 ps qs ps1 qs1
    rfl
  · intro t nm mo ex m1 m2 m3 m4 m5 m6 m7 ps qs ps1 qs1
    rfl

/-- Options used by the C2 scenario: exclude `*.log`, include `*.txt`. -/
def optsPat : SearchOpts :=
  { defaultSearchOptions with
    includePatterns := ["*.txt"]
    excludePatterns := ["*.log"] }

/-- The result `FindFiles` returns in the C2 scenario. -/
def resAtxt : SearchResult :=
  ⟨["root", "a.txt"], ⟨"a.txt", false, 1, 0, 0⟩, "name", 0, ""⟩

/-- C2 witness: `FindFiles` with exclude `*.log` and include `*.txt` on a
tree with `a.txt` and `b.log` returns only `a.txt`, which matches no
exclude pattern and matches an include pattern. -/
theorem c2_witness :
    (FindFiles
        (FSTree.dir ⟨0, 0, 0⟩ (Ents.econs "a.txt" (FSTree.file ⟨1, 0, 0⟩ "x")
          (Ents.econs "b.log" (FSTree.file ⟨1, 0, 0⟩ "y") Ents.enil)))
        "root" "*" optsPat = .ok [resAtxt] ∧ resAtxt ∈ [resAtxt]) ∧
    ((∀ ep ∈ optsPat.excludePatterns,
        matchPattern resAtxt.info.name ep optsPat.caseSensitive = false) ∧
      (optsPat.includePatterns ≠ [] →
        ∃ ip ∈ optsPat.includePatterns,
          matchPattern resAtxt.info.name ip optsPat.caseSensitive = true)) :=
  ⟨⟨by decide, by decide⟩,
    c2_patterns_only_in_findFiles.1
      (FSTree.dir ⟨0, 0, 0⟩ (Ents.econs "a.txt" (FSTree.file ⟨1, 0, 0⟩ "x")
        (Ents.econs "b.log" (FSTree.file ⟨1, 0, 0⟩ "y") Ents.enil)))
      "root" "*" optsPat [resAtxt] resAtxt (by decide) (by decide)⟩

/-! ## C6: the result cap yields exactly n results and a nil error -/

/-- The options of the cap scenario: the defaults with a result cap. -/
def oLim (n : Int) : SearchOpts :=
  ⟨-1, 0, false, true, false, false, n, [], []⟩

mutual

/-- How many regular files of the tree (listed under the given name)
match the pattern — the results `FindFiles` collects under default
options when no cap interrupts. -/
def matchCountT (pattern : String) : String → FSTree → Nat
  | name, .file _ _ => if matchPattern name pattern true = true then 1 else 0
  | _, .dir _ es => matchCountE pattern es

/-- Match count over a sibling list. -/
def matchCountE (pattern : String) : Ents → Nat
  | .enil => 0
  | .econs n c rest => matchCountT pattern n c + matchCountE pattern rest

end

theorem pipelineGate_oLim (n : Int) (hn : 0 < n) (s : SearchSt) (info : EInfo)
    (depth : Nat) :
    pipelineGate (oLim n) s info depth =
      if n ≤ (s.2 : Int) then some Sig.eof else none := by
  unfold pipelineGate oLim
  dsimp only
  by_cases hlim : n ≤ (s.2 : Int)
  · rw [if_neg (by omega), if_neg (by omega), if_pos ⟨hn, hlim⟩, if_pos hlim]
  · rw [if_neg (by omega), if_neg (by omega), if_neg (fun hc => hlim hc.2),
      if_neg (by simp), if_neg hlim]

theorem findFilesVisitor_oLim (pattern : String) (n : Int) (hn : 0 < n)
    (s : SearchSt) (path : List String) (info : EInfo) (depth : Nat) :
    findFilesVisitor pattern (oLim n) s path info depth =
      if n ≤ (s.2 : Int) then (s, Sig.eof)
      else if matchPattern info.name pattern true = true ∧ info.isDir = false then
        ((s.1 ++ [⟨path, info, "name", 0, ""⟩], s.2 + 1), Sig.cont)
      else (s, Sig.cont) := by
  unfold findFilesVisitor
  rw [pipelineGate_oLim n hn]
  by_cases hlim : n ≤ (s.2 : Int)
  · rw [if_pos hlim, if_pos hlim]
  · rw [if_neg hlim, if_neg hlim]
    simp [oLim]

/-- The cap invariant carried through a walk: the counter mirrors the
result-list length, the length never exceeds the cap, and the walk
either ends nil having added exactly the subtree's match count, or ends
with the abort signal holding exactly `n` results. -/
def limInv (n : Int) (s : SearchSt) (w : SearchSt × Option WErr) (mc : Nat) : Prop :=
  w.1.2 = w.1.1.length ∧ ((w.1.1.length : Int) ≤ n) ∧
    ((w.2 = none ∧ w.1.1.length = s.1.length + mc) ∨
      (w.2 = some WErr.eof ∧ ((w.1.1.length : Int) = n)))

mutual

/-- The cap invariant holds for every subtree walk of `FindFiles` run
with default options plus a positive result cap. -/
def findFilesLimit_T (pattern : String) (n : Int) (hn : 0 < n) :
    (t : FSTree) → ∀ (name : String) (path : List String) (depth : Nat)
      (s : SearchSt), s.2 = s.1.length → ((s.1.length : Int) ≤ n) →
      limInv n s
        (walkWithDepth (findFilesVisitor pattern (oLim n)) name path depth s t)
        (matchCountT pattern name t)
  | .file m co => fun name path depth s hs hle => by
    have hv := findFilesVisitor_oLim pattern n hn s path (einfoOf name (.file m co)) depth
    by_cases hlim : n ≤ (s.2 : Int)
    · rw [if_pos hlim] at hv
      have hwalk : walkWithDepth (findFilesVisitor pattern (oLim n)) name path
          depth s (.file m co) = (s, some WErr.eof) := by
        simp only [walkWithDepth, hv]
      rw [hwalk]
      refine ⟨hs, hle, Or.inr ⟨rfl, ?_⟩⟩
      rw [hs] at hlim
      show ((s.1.length : Int)) = n
      omega
    · rw [if_neg hlim] at hv
      rw [hs] at hlim
      by_cases hm : matchPattern name pattern true = true
      · have hcond : matchPattern (einfoOf name (FSTree.file m co)).name pattern true = true ∧
            (einfoOf name (FSTree.file m co)).isDir = false := ⟨hm, rfl⟩
        rw [if_pos hcond] at hv
        have hwalk : walkWithDepth (findFilesVisitor pattern (oLim n)) name path
            depth s (.file m co) =
            ((s.1 ++ [⟨path, einfoOf name (.file m co), "name", 0, ""⟩], s.2 + 1), none) := by
          simp only [walkWithDepth, hv]
        rw [hwalk]
        have hmc : matchCountT pattern name (.file m co) = 1 := by
          simp only [matchCountT]
          rw [if_pos hm]
        refine ⟨?_, ?_, Or.inl ⟨rfl, ?_⟩⟩
        · show s.2 + 1 = (s.1 ++ [(⟨path, einfoOf name (.file m co), "name", 0, ""⟩ : SearchResult)]).length
          simp [hs]
        · show (((s.1 ++ [(⟨path, einfoOf name (.file m co), "name", 0, ""⟩ : SearchResult)]).length : Int)) ≤ n
          simp only [List.length_append, List.length_singleton]
          push_cast
          omega
        · show (s.1 ++ [(⟨path, einfoOf name (.file m co), "name", 0, ""⟩ : SearchResult)]).length =
            s.1.length + matchCountT pattern name (.file m co)
          rw [hmc]
          simp
      · have hcond : ¬(matchPattern (einfoOf name (FSTree.file m co)).name pattern true = true ∧
            (einfoOf name (FSTree.file m co)).isDir = false) := fun hc => hm hc.1
        rw [if_neg hcond] at hv
        have hwalk : walkWithDepth (findFilesVisitor pattern (oLim n)) name path
            depth s (.file m co) = (s, none) := by
          simp only [walkWithDepth, hv]
        rw [hwalk]
        have hmc : matchCountT pattern name (.file m co) = 0 := by
          simp only [matchCountT]
          rw [if_neg hm]
        refine ⟨hs, hle, Or.inl ⟨rfl, ?_⟩⟩
        rw [hmc]
        show s.1.length = s.1.length + 0
        omega
  | .dir m es => fun name path depth s hs hle => by
    have hv := findFilesVisitor_oLim pattern n hn s path (einfoOf name (.dir m es)) depth
    by_cases hlim : n ≤ (s.2 : Int)
    · rw [if_pos hlim] at hv
      have hwalk : walkWithDepth (findFilesVisitor pattern (oLim n)) name path
          depth s (.dir m es) = (s, some WErr.eof) := by
        simp only [walkWithDepth, hv]
      rw [hwalk]
      refine ⟨hs, hle, Or.inr ⟨rfl, ?_⟩⟩
      rw [hs] at hlim
      show ((s.1.length : Int)) = n
      omega
    · rw [if_neg hlim] at hv
      have hcond : ¬(matchPattern (einfoOf name (FSTree.dir m es)).name pattern true = true ∧
          (einfoOf name (FSTree.dir m es)).isDir = false) := fun hc => by cases hc.2
      rw [if_neg hcond] at hv
      have hwalk : walkWithDepth (findFilesVisitor pattern (oLim n)) name path
          depth s (.dir m es) =
          walkEntries (findFilesVisitor pattern (oLim n)) path depth s es := by
        simp only [walkWithDepth, hv]
      rw [hwalk]
      have hmc : matchCountT pattern name (.dir m es) = matchCountE pattern es := by
        simp only [matchCountT]
      rw [hmc]
      exact findFilesLimit_E pattern n hn es path depth s hs hle

/-- The cap invariant over a sibling loop. -/
def findFilesLimit_E (pattern : String) (n : Int) (hn : 0 < n) :
    (es : Ents) → ∀ (path : List String) (depth : Nat) (s : SearchSt),
      s.2 = s.1.length → ((s.1.length : Int) ≤ n) →
      limInv n s
        (walkEntries (findFilesVisitor pattern (oLim n)) path depth s es)
        (matchCountE pattern es)
  | .enil => fun path depth s hs hle => by
    simp only [walkEntries]
    exact ⟨hs, hle, Or.inl ⟨rfl, by simp [matchCountE]⟩⟩
  | .econs nm c rest => fun path depth s hs hle => by
    rcases hw : walkWithDepth (findFilesVisitor pattern (oLim n)) nm
      (path ++ [nm]) (depth + 1) s c with ⟨s1, r⟩
    have hT := findFilesLimit_T pattern n hn c nm (path ++ [nm]) (depth + 1) s hs hle
    rw [hw] at hT
    rcases hT with ⟨hT1, hT2, hT3⟩
    rcases r with _ | wr
    · simp only [walkEntries, hw]
      rcases hT3 with ⟨_, hlen⟩ | ⟨hcontra, _⟩
      · rcases findFilesLimit_E pattern n hn rest path depth s1 hT1 hT2 with
          ⟨hE1, hE2, hE3⟩
        refine ⟨hE1, hE2, ?_⟩
        rcases hE3 with ⟨he, hlen2⟩ | ⟨he, hlen2⟩
        · refine Or.inl ⟨he, ?_⟩
          rw [hlen2, hlen]
          simp only [matchCountE]
          omega
        · exact Or.inr ⟨he, hlen2⟩
      · cases hcontra
    · rcases wr with _ | _ | cc
      · simp only [walkEntries, hw]
        rcases hT3 with ⟨hcontra, _⟩ | ⟨_, hlen⟩
        · cases hcontra
        · exact ⟨hT1, hT2, Or.inr ⟨rfl, hlen⟩⟩
      · rcases hT3 with ⟨hcontra, _⟩ | ⟨hcontra, _⟩ <;> cases hcontra
      · rcases hT3 with ⟨hcontra, _⟩ | ⟨hcontra, _⟩ <;> cases hcontra

end

/-- C6: `FindFiles` run with the default options plus a positive result
cap `n`, on a tree with at least `n` entries matching the pattern,
returns a nil error (the abort signal is a success outcome) and exactly
`n` results. -/
theorem c6_cap_returns_exactly_n :
    ∀ (t : FSTree) (rootName pattern : String) (n : Int),
      0 < n → n ≤ (matchCountT pattern rootName t : Int) →
      ∃ rs, FindFiles t rootName pattern
          { defaultSearchOptions with limitResults := n } = .ok rs ∧
        (rs.length : Int) = n := by
  intro t rootName pattern n hn hm
  have hoL : ({ defaultSearchOptions with limitResults := n } : SearchOpts) =
      oLim n := rfl
  rw [hoL]
  have h := findFilesLimit_T pattern n hn t rootName [rootName] 0 ([], 0) rfl
    (by simpa using le_of_lt hn)
  rcases hw : walkWithDepth (findFilesVisitor pattern (oLim n)) rootName
    [rootName] 0 ([], 0) t with ⟨s, r⟩
  rw [hw] at h
  rcases h with ⟨h1, h2, h3⟩
  rcases h3 with ⟨hr, hlen⟩ | ⟨hr, hlen⟩
  · simp only at hr
    subst hr
    refine ⟨s.1, ?_, ?_⟩
    · unfold FindFiles
      rw [hw]
      rfl
    · have hlen1 : s.1.length = matchCountT pattern rootName t := by
        simpa using hlen
      have h21 : ((s.1.length : Int)) ≤ n := h2
      show ((s.1.length : Int)) = n
      rw [hlen1] at h21 ⊢
      omega
  · simp only at hr
    subst hr
    refine ⟨s.1, ?_, hlen⟩
    unfold FindFiles
    rw [hw]
    rfl

/-- C6 witness: two files match `*.txt`, the cap is 1: the search stops
after the first and reports success with exactly one result. -/
theorem c6_witness :
    (0 < (1 : Int) ∧
      (1 : Int) ≤ (matchCountT "*.txt" "root"
        (FSTree.dir ⟨0, 0, 0⟩ (Ents.econs "a.txt" (FSTree.file ⟨1, 0, 0⟩ "x")
          (Ents.econs "b.txt" (FSTree.file ⟨1, 0, 0⟩ "y") Ents.enil))) : Int)) ∧
    ∃ rs, FindFiles
        (FSTree.dir ⟨0, 0, 0⟩ (Ents.econs "a.txt" (FSTree.file ⟨1, 0, 0⟩ "x")
          (Ents.econs "b.txt" (FSTree.file ⟨1, 0, 0⟩ "y") Ents.enil)))
        "root" "*.txt" { defaultSearchOptions with limitResults := (1 : Int) } =
      .ok rs ∧ (rs.length : Int) = 1 :=
  ⟨⟨by decide, by decide⟩,
    c6_cap_returns_exactly_n
      (FSTree.dir ⟨0, 0, 0⟩ (Ents.econs "a.txt" (FSTree.file ⟨1, 0, 0⟩ "x")
        (Ents.econs "b.txt" (FSTree.file ⟨1, 0, 0⟩ "y") Ents.enil)))
      "root" "*.txt" 1 (by decide) (by decide)⟩

end Fsx
